import Mathlib

/-!
Verification development for the autonomys/chiapos sources.

Shallow embedding of:
  - `UniformSort::SortToMemory` and `UniformSort::IsPositionEmpty`
    (src/src/uniformsort.hpp),
  - `SortManager` (`AddToCache`, `SortBucket`, `ReadEntry`,
    `TriggerNewBucket`; the sort_manager part of src/unnamed/part_000),
  - the FFI wrappers in src/src/subspace.hpp,
  - the argument checks and `WriteHeader` of `DiskPlotter::CreatePlotDisk`
    (src/src/plotter_disk.hpp).

Modelling conventions:
  - Bytes are `Nat` values (< 256 in any well-formed state); an entry is a
    `List Nat` of its bytes.  `C++` exception classes become the `ChiaError`
    inductive and throwing functions return `Except ChiaError _`.
  - Every pointer arithmetic step of the sort code moves in whole entries
    (positions are always multiples of `entry_len`), so a memory region of
    `n * entry_len` bytes is modelled as a `List` of `n` entry slots.
  - Loops are translated into structurally recursive functions over an
    explicit fuel argument which is chosen, at each call site, large enough
    that exhausting it coincides exactly with the loop guard going false;
    this keeps all definitions kernel-evaluable.
  - Helper routines of the repository that are not present under src/
    (util.hpp, bits.hpp, the prover/verifier, pos_constants.hpp) are
    modelled from the spec; each such definition carries a doc comment
    starting with `Modelled from the spec:`.
-/

/-- The exception classes of the repository (exceptions.hpp is not under
src/; the distinct classes thrown by the sources in src/ are modelled as
distinct constructors). -/
inductive ChiaError where
  | InvalidValue
  | InvalidState
  | InsufficientMemory
  deriving DecidableEq, Repr

/-- An entry: the list of its bytes. -/
abbrev Entry := List Nat

namespace Util

/-- Modelled from the spec: bit `i` of a byte buffer in MSB-first order
(spec section 4.1, big-endian MSB-first packing).  Bits beyond the end of
the buffer read as zero. -/
def bitAt (e : Entry) (i : Nat) : Nat :=
  e.getD (i / 8) 0 / 2 ^ (7 - i % 8) % 2

/-- Modelled from the spec: `extract(entry, begin_bits, take_bits)` reads
`take_bits` bits starting at bit offset `b`, MSB first, as an unsigned
integer (spec section 4.5: `extract_bits(entry, begin_bits, log2(B))`;
the source function is `Util::ExtractNum` in the missing util.hpp). -/
def ExtractNum (e : Entry) (b t : Nat) : Nat :=
  (List.range t).foldl (fun acc i => 2 * acc + bitAt e (b + i)) 0

/-- The value of the whole bit suffix of an `entryLen`-byte entry starting
at bit `b`: the quantity `MemCmpBits` compares. -/
def suffixVal (entryLen b : Nat) (e : Entry) : Nat :=
  ExtractNum e b (8 * entryLen - b)

/-- Modelled from the spec: `MemCmpBits` compares two `entryLen`-byte
buffers lexicographically on the bit suffix starting at `bitsBegin`
(spec section 4.5 step 2a); only the sign of the result is used by the
callers, exactly as for the source function in the missing util.hpp. -/
def MemCmpBits (a b : Entry) (entryLen bitsBegin : Nat) : Int :=
  (suffixVal entryLen bitsBegin a : Int) - suffixVal entryLen bitsBegin b

/-- The while loop of uniformsort.hpp line 43: starting from `l`, increase
`l` while `2 ^ l < m`.  The fuel bounds the number of iterations; a fuel
of `m` always suffices since `m <= 2 ^ m`. -/
def bucketLengthGo (m : Nat) : Nat → Nat → Nat
  | 0, l => l
  | fuel + 1, l => if m ≤ 2 ^ l then l else bucketLengthGo m fuel (l + 1)

/-- The number of bucket bits of the uniform sort, the smallest `l` with
`2 ^ l >= 2 * numEntries` (uniformsort.hpp line 43). -/
def bucketLength (numEntries : Nat) : Nat :=
  bucketLengthGo (2 * numEntries) (2 * numEntries) 0

/-- Modelled from the spec: `Util::RoundSize` (missing util.hpp), the
number of entry slots of the output region, `B = smallest power of two
>= 2 * N` (spec section 4.5: the output region has size
`B * entry_size`). -/
def RoundSize (numEntries : Nat) : Nat :=
  2 ^ bucketLength numEntries

/-- The doubling loop of `Util::RoundPow2`: `result = 1; while (result < a)
result *= 2;` with an explicit iteration bound (a fuel of `a` always
suffices since `a <= 2 ^ a`). -/
def RoundPow2Go (a : Nat) : Nat → Nat → Nat
  | 0, r => r
  | fuel + 1, r => if r < a then RoundPow2Go a fuel (2 * r) else r

/-- Modelled from the spec: `Util::RoundPow2` (missing util.hpp) rounds
up to the nearest power of two (spec section 9: inputs that are not
powers of two are silently rounded up). -/
def RoundPow2 (a : Nat) : Nat :=
  RoundPow2Go a a 1

/-- Modelled from the spec: `Util::IntToTwoBytes` (missing util.hpp)
writes a 16-bit value as two big-endian bytes (spec section 6:
`format_description_length` is 2 bytes, big-endian). -/
def IntToTwoBytes (n : Nat) : List Nat :=
  [n / 256 % 256, n % 256]

end Util

namespace UniformSort

/-- `UniformSort::IsPositionEmpty` (uniformsort.hpp lines 24-30): true
when all bytes of the slot are zero. -/
def IsPositionEmpty (e : Entry) : Bool :=
  e.all (fun x => x == 0)

/-- An all-zero slot of `entryLen` bytes (the state of the output region
after the `memset` of uniformsort.hpp line 44). -/
def zeroEntry (entryLen : Nat) : Entry :=
  List.replicate entryLen 0

/-- The collision-resolution loop of `SortToMemory` (uniformsort.hpp lines
54-65) for one incoming entry: starting at slot `pos`, while the slot is
occupied keep the smaller of occupant and carried entry and push the
larger one right; place the carried entry in the first free slot.  The
`C++` loop guard is `!IsPositionEmpty(memory+pos) && pos < memory_len`;
`fuel` is `memLenSlots - pos` at every call, so `fuel = 0` coincides with
`pos = memory_len` and the entry is then written at the first slot at or
past the end of the region, exactly as the source does.  Returns the new
memory and the slot the entry was placed at. -/
def chainInsert (entryLen bitsBegin : Nat) :
    Nat → Entry → Nat → List Entry → List Entry × Nat
  | 0, cur, pos, mem => (mem.set pos cur, pos)
  | fuel + 1, cur, pos, mem =>
    if IsPositionEmpty (mem.getD pos []) then
      (mem.set pos cur, pos)
    else
      if Util.MemCmpBits (mem.getD pos []) cur entryLen bitsBegin > 0 then
        chainInsert entryLen bitsBegin fuel (mem.getD pos []) (pos + 1) (mem.set pos cur)
      else
        chainInsert entryLen bitsBegin fuel cur (pos + 1) mem

/-- The insertion phase of `SortToMemory` (uniformsort.hpp lines 47-67):
insert the input entries in order, each starting at the slot given by its
`bucketLen`-bit field at `bitsBegin` (line 50).  Also records, in input
order, the slot each entry was placed at. -/
def insertAll (entryLen bitsBegin bucketLen memLenSlots : Nat) :
    List Entry → List Entry → List Entry × List Nat
  | [], mem => (mem, [])
  | e :: input, mem =>
    let pos := Util.ExtractNum e bitsBegin bucketLen
    let r := chainInsert entryLen bitsBegin (memLenSlots - pos) e pos mem
    let rest := insertAll entryLen bitsBegin bucketLen memLenSlots input r.1
    (rest.1, r.2 :: rest.2)

/-- The compaction loop of `SortToMemory` (uniformsort.hpp lines 68-81):
scan the region forward, copying each occupied slot to the next output
slot, stopping after `numEntries` entries or at the end of the region.
`fuel` is `memLenSlots - pos` at every call.  Returns the memory and the
number of entries written. -/
def compactLoop (memLenSlots numEntries : Nat) :
    Nat → Nat → Nat → List Entry → List Entry × Nat
  | 0, _, written, mem => (mem, written)
  | fuel + 1, pos, written, mem =>
    if written < numEntries then
      if IsPositionEmpty (mem.getD pos []) then
        compactLoop memLenSlots numEntries fuel (pos + 1) written mem
      else
        compactLoop memLenSlots numEntries fuel (pos + 1) (written + 1)
          (mem.set written (mem.getD pos []))
    else
      (mem, written)

/-- `UniformSort::SortToMemory` (uniformsort.hpp lines 32-84) over the slot
model: the output region has `RoundSize N` slots (`memory_len` bytes is
`RoundSize N * entry_len`), plus one extra slot so that the write one past
the end of the region that the collision loop can fall through to (see the
`C10` analysis) stays representable; that extra slot is never read back.
Returns the final memory and `entries_written`. -/
def SortToMemory (input : List Entry) (entryLen bitsBegin : Nat) :
    List Entry × Nat :=
  let N := input.length
  let B := Util.RoundSize N
  let mem0 := List.replicate (B + 1) (zeroEntry entryLen)
  let inserted := insertAll entryLen bitsBegin (Util.bucketLength N) B input mem0
  compactLoop B N B 0 0 inserted.1

/-- The slots at which the insertion loop of `SortToMemory` places the
input entries, in input order (slot `p` is byte position
`p * entry_len`). -/
def placements (input : List Entry) (entryLen bitsBegin : Nat) : List Nat :=
  (insertAll entryLen bitsBegin (Util.bucketLength input.length)
    (Util.RoundSize input.length) input
    (List.replicate (Util.RoundSize input.length + 1) (zeroEntry entryLen))).2

/-- True when every placement of the insertion loop lands strictly inside
the output region (`pos < memory_len` at the write of uniformsort.hpp
line 65). -/
def sortOk (input : List Entry) (entryLen bitsBegin : Nat) : Bool :=
  (placements input entryLen bitsBegin).all (fun p => p < Util.RoundSize input.length)

/-- The first `N` slots of the output region after `SortToMemory`: the
sorted result handed to the caller. -/
def sortOutput (input : List Entry) (entryLen bitsBegin : Nat) : List Entry :=
  (SortToMemory input entryLen bitsBegin).1.take input.length

end UniformSort

namespace Util

theorem bitAt_le_one (e : Entry) (i : Nat) : bitAt e i ≤ 1 := by
  have := Nat.mod_lt (e.getD (i / 8) 0 / 2 ^ (7 - i % 8)) (show 0 < 2 by norm_num)
  unfold bitAt
  omega

theorem ExtractNum_succ (e : Entry) (b t : Nat) :
    ExtractNum e b (t + 1) = 2 * ExtractNum e b t + bitAt e (b + t) := by
  unfold ExtractNum
  rw [List.range_succ, List.foldl_append]
  rfl

theorem ExtractNum_zero (e : Entry) (b : Nat) : ExtractNum e b 0 = 0 := rfl

theorem ExtractNum_lt (e : Entry) (b t : Nat) : ExtractNum e b t < 2 ^ t := by
  induction t with
  | zero => simp [ExtractNum_zero]
  | succ t ih =>
    have hb := bitAt_le_one e (b + t)
    rw [ExtractNum_succ, pow_succ]
    omega

theorem ExtractNum_add (e : Entry) (b t u : Nat) :
    ExtractNum e b (t + u) = ExtractNum e b t * 2 ^ u + ExtractNum e (b + t) u := by
  induction u with
  | zero => simp [ExtractNum_zero]
  | succ u ih =>
    have h1 : t + (u + 1) = (t + u) + 1 := by omega
    rw [h1, ExtractNum_succ, ih, ExtractNum_succ, pow_succ]
    have h2 : b + (t + u) = b + t + u := by omega
    rw [h2]
    ring

theorem bitAt_eq_zero_of_ge (e : Entry) (i : Nat) (h : 8 * e.length ≤ i) :
    bitAt e i = 0 := by
  have hlen : e.length ≤ i / 8 := by
    rw [Nat.le_div_iff_mul_le (by norm_num)]
    omega
  have h0 : e.getD (i / 8) 0 = 0 := List.getD_eq_default e 0 hlen
  unfold bitAt
  rw [h0]
  simp

theorem ExtractNum_eq_zero_of_ge (e : Entry) (b t : Nat) (h : 8 * e.length ≤ b) :
    ExtractNum e b t = 0 := by
  induction t with
  | zero => rfl
  | succ t ih =>
    rw [ExtractNum_succ, ih, bitAt_eq_zero_of_ge e (b + t) (by omega)]

theorem ExtractNum_eq_zero_of_all_zero (e : Entry) (b t : Nat)
    (h : ∀ x ∈ e, x = 0) : ExtractNum e b t = 0 := by
  induction t with
  | zero => rfl
  | succ t ih =>
    have hb : bitAt e (b + t) = 0 := by
      unfold bitAt
      rcases Nat.lt_or_ge ((b + t) / 8) e.length with hlt | hge
      · rw [List.getD_eq_getElem e 0 hlt, h _ (e.getElem_mem hlt)]
        simp
      · rw [List.getD_eq_default e 0 hge]
        simp
    rw [ExtractNum_succ, ih, hb]

/-- Strict monotonicity from the bucket field to the full bit suffix: two
entries of the same byte length whose `bucketLen`-bit fields at `bitsBegin`
compare strictly also have strictly comparing bit suffixes from
`bitsBegin`.  This is what makes a bucket field a sound sort radix. -/
theorem suffixVal_lt_of_bucket_lt (x y : Entry) (entryLen bitsBegin bucketLen : Nat)
    (hx : x.length = entryLen) (hy : y.length = entryLen)
    (h : ExtractNum x bitsBegin bucketLen < ExtractNum y bitsBegin bucketLen) :
    suffixVal entryLen bitsBegin x < suffixVal entryLen bitsBegin y := by
  set T := 8 * entryLen - bitsBegin with hT
  rcases Nat.lt_or_ge bucketLen T with hbl | hbl
  · -- the bucket field is a strict prefix of the suffix
    have hsplit : ∀ e : Entry, suffixVal entryLen bitsBegin e =
        ExtractNum e bitsBegin bucketLen * 2 ^ (T - bucketLen) +
          ExtractNum e (bitsBegin + bucketLen) (T - bucketLen) := by
      intro e
      have h3 : bucketLen + (T - bucketLen) = T := by omega
      have h4 := ExtractNum_add e bitsBegin bucketLen (T - bucketLen)
      rw [h3] at h4
      simpa [suffixVal, ← hT] using h4
    rw [hsplit x, hsplit y]
    have hxr := ExtractNum_lt x (bitsBegin + bucketLen) (T - bucketLen)
    calc ExtractNum x bitsBegin bucketLen * 2 ^ (T - bucketLen) +
          ExtractNum x (bitsBegin + bucketLen) (T - bucketLen)
        < (ExtractNum x bitsBegin bucketLen + 1) * 2 ^ (T - bucketLen) := by
          rw [add_mul, one_mul]; omega
      _ ≤ ExtractNum y bitsBegin bucketLen * 2 ^ (T - bucketLen) := by
          exact Nat.mul_le_mul_right _ (by omega)
      _ ≤ _ := Nat.le_add_right _ _
  · -- the bucket field extends at or past the end of the entry
    rcases Nat.lt_or_ge bitsBegin (8 * entryLen) with hb8 | hb8
    · have hpad : ∀ e : Entry, e.length = entryLen →
          ExtractNum e bitsBegin bucketLen =
            suffixVal entryLen bitsBegin e * 2 ^ (bucketLen - T) := by
        intro e he
        have h1 : T + (bucketLen - T) = bucketLen := by omega
        have h4 := ExtractNum_add e bitsBegin T (bucketLen - T)
        rw [h1] at h4
        have h2 : 8 * e.length ≤ bitsBegin + T := by
          rw [he]; omega
        rw [ExtractNum_eq_zero_of_ge e _ _ h2] at h4
        simpa [suffixVal, ← hT] using h4
      rw [hpad x hx, hpad y hy] at h
      exact lt_of_mul_lt_mul_right h (Nat.zero_le _)
    · -- the suffix is empty: both bucket fields are zero, contradiction
      exfalso
      rw [ExtractNum_eq_zero_of_ge x _ _ (by omega),
        ExtractNum_eq_zero_of_ge y _ _ (by omega)] at h
      omega

end Util

namespace UniformSort

theorem IsPositionEmpty_zeroEntry (entryLen : Nat) :
    IsPositionEmpty (zeroEntry entryLen) = true := by
  simp [IsPositionEmpty, zeroEntry, List.all_eq_true]

theorem not_isPositionEmpty_of_suffix_ne (e : Entry) (entryLen bitsBegin : Nat)
    (_hlen : e.length = entryLen)
    (h : Util.suffixVal entryLen bitsBegin e ≠ 0) :
    IsPositionEmpty e = false := by
  by_contra hc
  have hemp : IsPositionEmpty e = true := by
    revert hc
    cases IsPositionEmpty e <;> simp
  have hall : ∀ x ∈ e, x = 0 := by
    intro x hx
    have := (List.all_eq_true.mp hemp) x hx
    simpa using this
  exact h (Util.ExtractNum_eq_zero_of_all_zero e _ _ hall)

/-- A slot holding an entry (the negation of `IsPositionEmpty`). -/
def slotFull (e : Entry) : Bool :=
  ! IsPositionEmpty e

/-- The occupied slots of the region, in slot order. -/
def occEntries (mem : List Entry) : List Entry :=
  mem.filter slotFull

theorem slotFull_iff (e : Entry) : slotFull e = true ↔ IsPositionEmpty e = false := by
  unfold slotFull
  cases IsPositionEmpty e <;> simp

theorem slotFull_zeroEntry (entryLen : Nat) : slotFull (zeroEntry entryLen) = false := by
  unfold slotFull
  rw [IsPositionEmpty_zeroEntry]
  rfl

theorem slotFull_nil : slotFull ([] : Entry) = false := by
  unfold slotFull IsPositionEmpty
  simp

theorem MemCmpBits_pos_iff (a b : Entry) (entryLen bitsBegin : Nat) :
    Util.MemCmpBits a b entryLen bitsBegin > 0 ↔
      Util.suffixVal entryLen bitsBegin b < Util.suffixVal entryLen bitsBegin a := by
  unfold Util.MemCmpBits
  omega

theorem getD_set_self {α : Type} (l : List α) (i : Nat) (a d : α) (h : i < l.length) :
    (l.set i a).getD i d = a := by
  simp [List.getD, List.getElem?_set, h]

theorem getD_set_ne {α : Type} (l : List α) (i j : Nat) (a d : α) (h : i ≠ j) :
    (l.set i a).getD j d = l.getD j d := by
  simp [List.getD, List.getElem?_set, h]

theorem list_eq_take_cons_drop (l : List Entry) (p : Nat) (h : p < l.length) :
    l = l.take p ++ l.getD p [] :: l.drop (p + 1) := by
  conv_lhs => rw [← List.take_append_drop p l, List.drop_eq_getElem_cons h]
  rw [List.getD_eq_getElem l [] h]

theorem set_eq_take_cons_drop (l : List Entry) (p : Nat) (a : Entry) (h : p < l.length) :
    l.set p a = l.take p ++ a :: l.drop (p + 1) := by
  rw [List.set_eq_take_append_cons_drop, if_pos h]

/-- Replacing an empty slot by a full entry adds that entry to the occupied
slots, up to permutation. -/
theorem occEntries_set_of_empty (mem : List Entry) (p : Nat) (a : Entry)
    (hp : p < mem.length) (hold : slotFull (mem.getD p []) = false)
    (ha : slotFull a = true) :
    List.Perm (occEntries (mem.set p a)) (a :: occEntries mem) := by
  have hdecomp := list_eq_take_cons_drop mem p hp
  have hset := set_eq_take_cons_drop mem p a hp
  unfold occEntries
  rw [hset, List.filter_append, List.filter_cons_of_pos ha]
  conv_rhs => rw [hdecomp]
  rw [List.filter_append, List.filter_cons_of_neg (by rw [hold]; simp)]
  exact List.perm_middle

/-- Replacing a full slot by a full entry exchanges the two entries in the
occupied slots, up to permutation (stated in paired form to avoid
multiset erasure). -/
theorem occEntries_set_of_full (mem : List Entry) (p : Nat) (a : Entry)
    (hp : p < mem.length) (hold : slotFull (mem.getD p []) = true)
    (ha : slotFull a = true) :
    List.Perm (mem.getD p [] :: occEntries (mem.set p a)) (a :: occEntries mem) := by
  have hdecomp := list_eq_take_cons_drop mem p hp
  have hset := set_eq_take_cons_drop mem p a hp
  unfold occEntries
  rw [hset, List.filter_append, List.filter_cons_of_pos ha]
  conv_rhs => rw [hdecomp]
  rw [List.filter_append, List.filter_cons_of_pos hold]
  have h1 : List.Perm
      (List.filter slotFull (mem.take p) ++ a :: List.filter slotFull (mem.drop (p + 1)))
      (a :: (List.filter slotFull (mem.take p) ++ List.filter slotFull (mem.drop (p + 1)))) :=
    List.perm_middle
  have h2 : List.Perm
      (List.filter slotFull (mem.take p) ++
        mem.getD p [] :: List.filter slotFull (mem.drop (p + 1)))
      (mem.getD p [] ::
        (List.filter slotFull (mem.take p) ++ List.filter slotFull (mem.drop (p + 1)))) :=
    List.perm_middle
  exact ((h1.cons _).trans ((List.Perm.swap _ _ _).trans ((h2.symm).cons _)))

/-- The data invariant of the output region during the insertion phase of
`SortToMemory`: occupied slots hold entries of the right width, every
occupied entry sits at or to the right of the slot named by its bucket
field, every occupied entry sits strictly to the right of every empty slot
left of its bucket field, and occupied slots are sorted by bit suffix. -/
structure SortInv (entryLen bitsBegin bucketLen : Nat) (mem : List Entry) : Prop where
  lenEq : ∀ j, slotFull (mem.getD j []) = true → (mem.getD j []).length = entryLen
  homeLe : ∀ j, slotFull (mem.getD j []) = true →
    Util.ExtractNum (mem.getD j []) bitsBegin bucketLen ≤ j
  gapLt : ∀ i j, i < j → slotFull (mem.getD i []) = false →
    slotFull (mem.getD j []) = true →
    i < Util.ExtractNum (mem.getD j []) bitsBegin bucketLen
  sorted : ∀ i j, i < j → slotFull (mem.getD i []) = true →
    slotFull (mem.getD j []) = true →
    Util.suffixVal entryLen bitsBegin (mem.getD i []) ≤
      Util.suffixVal entryLen bitsBegin (mem.getD j [])

/-- The invariant of the carried entry while the collision loop is at
slot `pos`. -/
structure ChainInv (entryLen bitsBegin bucketLen : Nat)
    (cur : Entry) (pos : Nat) (mem : List Entry) : Prop where
  curFull : slotFull cur = true
  curLen : cur.length = entryLen
  curHome : Util.ExtractNum cur bitsBegin bucketLen ≤ pos
  belowLe : ∀ q, q < pos → slotFull (mem.getD q []) = true →
    Util.suffixVal entryLen bitsBegin (mem.getD q []) ≤
      Util.suffixVal entryLen bitsBegin cur
  gapCur : ∀ i, i < pos → slotFull (mem.getD i []) = false →
    i < Util.ExtractNum cur bitsBegin bucketLen

/-- Main lemma about one run of the collision-resolution loop: it only
writes inside `[pos, placement]`, and, whenever the placement lands inside
the region, it preserves the data invariant and adds exactly the incoming
entry to the occupied slots. -/
theorem chainInsert_spec (entryLen bitsBegin bucketLen B : Nat) :
    ∀ fuel cur pos mem,
      fuel = B - pos → pos ≤ B → mem.length = B + 1 →
      SortInv entryLen bitsBegin bucketLen mem →
      ChainInv entryLen bitsBegin bucketLen cur pos mem →
      pos ≤ (chainInsert entryLen bitsBegin fuel cur pos mem).2 ∧
      (chainInsert entryLen bitsBegin fuel cur pos mem).2 ≤ B ∧
      (chainInsert entryLen bitsBegin fuel cur pos mem).1.length = B + 1 ∧
      (∀ j, (chainInsert entryLen bitsBegin fuel cur pos mem).2 < j →
        (chainInsert entryLen bitsBegin fuel cur pos mem).1.getD j [] = mem.getD j []) ∧
      ((chainInsert entryLen bitsBegin fuel cur pos mem).2 < B →
        SortInv entryLen bitsBegin bucketLen
          (chainInsert entryLen bitsBegin fuel cur pos mem).1 ∧
        List.Perm (occEntries (chainInsert entryLen bitsBegin fuel cur pos mem).1)
          (cur :: occEntries mem)) := by
  intro fuel
  induction fuel with
  | zero =>
    intro cur pos mem hfuel hpos hlen _hinv _hchain
    have hposB : pos = B := by omega
    simp only [chainInsert]
    refine ⟨Nat.le_refl _, by omega, by simp [hlen], ?_, by omega⟩
    intro j hj
    exact getD_set_ne _ _ _ _ _ (by omega)
  | succ fuel ih =>
    intro cur pos mem hfuel hpos hlen hinv hchain
    have hposB : pos < B := by omega
    have hposLen : pos < mem.length := by omega
    simp only [chainInsert]
    by_cases hemp : IsPositionEmpty (mem.getD pos []) = true
    · -- the slot is free: place the carried entry here
      rw [if_pos hemp]
      have holdEmpty : slotFull (mem.getD pos []) = false := by
        unfold slotFull
        rw [hemp]
        rfl
      refine ⟨Nat.le_refl _, by omega, by simp [hlen], ?_, ?_⟩
      · intro j hj
        exact getD_set_ne _ _ _ _ _ (by omega)
      · intro _
        constructor
        · constructor
          · intro j hj
            rcases eq_or_ne pos j with rfl | hne
            · rw [getD_set_self _ _ _ _ hposLen] at hj ⊢
              exact hchain.curLen
            · rw [getD_set_ne _ _ _ _ _ hne] at hj ⊢
              exact hinv.lenEq j hj
          · intro j hj
            rcases eq_or_ne pos j with rfl | hne
            · rw [getD_set_self _ _ _ _ hposLen] at hj ⊢
              exact hchain.curHome
            · rw [getD_set_ne _ _ _ _ _ hne] at hj ⊢
              exact hinv.homeLe j hj
          · intro i j hij hi hj
            rcases eq_or_ne pos j with rfl | hnej
            · rw [getD_set_self _ _ _ _ hposLen] at hj ⊢
              have hnei : pos ≠ i := by omega
              rw [getD_set_ne _ _ _ _ _ hnei] at hi
              exact hchain.gapCur i hij hi
            · rw [getD_set_ne _ _ _ _ _ hnej] at hj ⊢
              rcases eq_or_ne pos i with rfl | hnei
              · rw [getD_set_self _ _ _ _ hposLen] at hi
                rw [hchain.curFull] at hi
                exact absurd hi (by simp)
              · rw [getD_set_ne _ _ _ _ _ hnei] at hi
                exact hinv.gapLt i j hij hi hj
          · intro i j hij hi hj
            rcases eq_or_ne pos i with rfl | hnei
            · -- the new entry against a later occupied slot
              rw [getD_set_self _ _ _ _ hposLen] at hi ⊢
              have hnej : pos ≠ j := by omega
              rw [getD_set_ne _ _ _ _ _ hnej] at hj ⊢
              have hbler := hinv.gapLt pos j hij holdEmpty hj
              have hch := hchain.curHome
              have hstrict := Util.suffixVal_lt_of_bucket_lt cur (mem.getD j [])
                entryLen bitsBegin bucketLen hchain.curLen (hinv.lenEq j hj)
                (by omega)
              omega
            · rw [getD_set_ne _ _ _ _ _ hnei] at hi ⊢
              rcases eq_or_ne pos j with rfl | hnej
              · rw [getD_set_self _ _ _ _ hposLen] at hj ⊢
                exact hchain.belowLe i hij hi
              · rw [getD_set_ne _ _ _ _ _ hnej] at hj ⊢
                exact hinv.sorted i j hij hi hj
        · exact occEntries_set_of_empty mem pos cur hposLen holdEmpty hchain.curFull
    · -- the slot is occupied: compare and continue rightwards
      rw [if_neg hemp]
      have hfull : slotFull (mem.getD pos []) = true := by
        unfold slotFull
        cases h : IsPositionEmpty (mem.getD pos []) with
        | false => rfl
        | true => exact absurd h hemp
      have hfuel' : fuel = B - (pos + 1) := by omega
      have hpos' : pos + 1 ≤ B := by omega
      by_cases hswap : Util.MemCmpBits (mem.getD pos []) cur entryLen bitsBegin > 0
      · rw [if_pos hswap]
        have hkey : Util.suffixVal entryLen bitsBegin cur <
            Util.suffixVal entryLen bitsBegin (mem.getD pos []) :=
          (MemCmpBits_pos_iff _ _ _ _).mp hswap
        have hlen' : (mem.set pos cur).length = B + 1 := by simp [hlen]
        have hinv' : SortInv entryLen bitsBegin bucketLen (mem.set pos cur) := by
          constructor
          · intro j hj
            rcases eq_or_ne pos j with rfl | hne
            · rw [getD_set_self _ _ _ _ hposLen] at hj ⊢
              exact hchain.curLen
            · rw [getD_set_ne _ _ _ _ _ hne] at hj ⊢
              exact hinv.lenEq j hj
          · intro j hj
            rcases eq_or_ne pos j with rfl | hne
            · rw [getD_set_self _ _ _ _ hposLen] at hj ⊢
              exact hchain.curHome
            · rw [getD_set_ne _ _ _ _ _ hne] at hj ⊢
              exact hinv.homeLe j hj
          · intro i j hij hi hj
            rcases eq_or_ne pos j with rfl | hnej
            · rw [getD_set_self _ _ _ _ hposLen] at hj ⊢
              have hnei : pos ≠ i := by omega
              rw [getD_set_ne _ _ _ _ _ hnei] at hi
              exact hchain.gapCur i hij hi
            · rw [getD_set_ne _ _ _ _ _ hnej] at hj ⊢
              rcases eq_or_ne pos i with rfl | hnei
              · rw [getD_set_self _ _ _ _ hposLen] at hi
                rw [hchain.curFull] at hi
                exact absurd hi (by simp)
              · rw [getD_set_ne _ _ _ _ _ hnei] at hi
                exact hinv.gapLt i j hij hi hj
          · intro i j hij hi hj
            rcases eq_or_ne pos i with rfl | hnei
            · rw [getD_set_self _ _ _ _ hposLen] at hi ⊢
              have hnej : pos ≠ j := by omega
              rw [getD_set_ne _ _ _ _ _ hnej] at hj ⊢
              have := hinv.sorted pos j hij hfull hj
              omega
            · rw [getD_set_ne _ _ _ _ _ hnei] at hi ⊢
              rcases eq_or_ne pos j with rfl | hnej
              · rw [getD_set_self _ _ _ _ hposLen] at hj ⊢
                exact hchain.belowLe i hij hi
              · rw [getD_set_ne _ _ _ _ _ hnej] at hj ⊢
                exact hinv.sorted i j hij hi hj
        have hchain' : ChainInv entryLen bitsBegin bucketLen
            (mem.getD pos []) (pos + 1) (mem.set pos cur) := by
          constructor
          · exact hfull
          · exact hinv.lenEq pos hfull
          · exact Nat.le_succ_of_le (hinv.homeLe pos hfull)
          · intro q hq hqfull
            rcases eq_or_ne pos q with rfl | hne
            · rw [getD_set_self _ _ _ _ hposLen] at hqfull ⊢
              omega
            · rw [getD_set_ne _ _ _ _ _ hne] at hqfull ⊢
              have hq' : q < pos := by omega
              exact hinv.sorted q pos hq' hqfull hfull
          · intro i hi hiempty
            rcases eq_or_ne pos i with rfl | hne
            · rw [getD_set_self _ _ _ _ hposLen] at hiempty
              rw [hchain.curFull] at hiempty
              exact absurd hiempty (by simp)
            · rw [getD_set_ne _ _ _ _ _ hne] at hiempty
              have hi' : i < pos := by omega
              exact hinv.gapLt i pos hi' hiempty hfull
        obtain ⟨q1, q2, q3, q4, q5⟩ :=
          ih (mem.getD pos []) (pos + 1) (mem.set pos cur) hfuel' hpos' hlen' hinv' hchain'
        refine ⟨by omega, q2, q3, ?_, ?_⟩
        · intro j hj
          rw [q4 j hj, getD_set_ne _ _ _ _ _ (by omega)]
        · intro hplace
          obtain ⟨r1, r2⟩ := q5 hplace
          refine ⟨r1, ?_⟩
          have hpair := occEntries_set_of_full mem pos cur hposLen hfull hchain.curFull
          exact r2.trans hpair
      · rw [if_neg hswap]
        have hkey : Util.suffixVal entryLen bitsBegin (mem.getD pos []) ≤
            Util.suffixVal entryLen bitsBegin cur := by
          rcases Nat.lt_or_ge (Util.suffixVal entryLen bitsBegin cur)
            (Util.suffixVal entryLen bitsBegin (mem.getD pos [])) with hlt | hge
          · exact absurd ((MemCmpBits_pos_iff _ _ _ _).mpr hlt) hswap
          · exact hge
        have hchain'' : ChainInv entryLen bitsBegin bucketLen cur (pos + 1) mem := by
          constructor
          · exact hchain.curFull
          · exact hchain.curLen
          · exact Nat.le_succ_of_le hchain.curHome
          · intro q hq hqfull
            rcases eq_or_ne q pos with rfl | hne
            · exact hkey
            · exact hchain.belowLe q (by omega) hqfull
          · intro i hi hiempty
            rcases eq_or_ne i pos with rfl | hne
            · rw [hfull] at hiempty
              exact absurd hiempty (by simp)
            · exact hchain.gapCur i (by omega) hiempty
        obtain ⟨q1, q2, q3, q4, q5⟩ := ih cur (pos + 1) mem hfuel' hpos' hlen hinv hchain''
        exact ⟨by omega, q2, q3, q4, q5⟩

/-- The whole insertion phase: when every placement lands inside the
region, the data invariant is preserved, the occupied slots afterwards are
exactly the previous ones plus the inserted entries, and the slot one past
the region is untouched. -/
theorem insertAll_spec (entryLen bitsBegin bucketLen B : Nat) (hB : B = 2 ^ bucketLen) :
    ∀ (input : List Entry) (mem : List Entry),
      mem.length = B + 1 →
      SortInv entryLen bitsBegin bucketLen mem →
      (∀ e ∈ input, e.length = entryLen ∧ slotFull e = true) →
      (∀ p ∈ (insertAll entryLen bitsBegin bucketLen B input mem).2, p < B) →
      (insertAll entryLen bitsBegin bucketLen B input mem).1.length = B + 1 ∧
      SortInv entryLen bitsBegin bucketLen
        (insertAll entryLen bitsBegin bucketLen B input mem).1 ∧
      List.Perm (occEntries (insertAll entryLen bitsBegin bucketLen B input mem).1)
        (input ++ occEntries mem) ∧
      (insertAll entryLen bitsBegin bucketLen B input mem).1.getD B [] = mem.getD B [] := by
  intro input
  induction input with
  | nil =>
    intro mem hlen hinv _hin _hok
    exact ⟨hlen, hinv, List.Perm.refl _, rfl⟩
  | cons e input ih =>
    intro mem hlen hinv hin hok
    obtain ⟨helen, hefull⟩ := hin e (List.mem_cons_self e input)
    have hin' : ∀ x ∈ input, x.length = entryLen ∧ slotFull x = true := by
      intro x hx
      exact hin x (List.mem_cons_of_mem e hx)
    set pos := Util.ExtractNum e bitsBegin bucketLen with hpos
    have hposB : pos < B := by
      rw [hB]
      exact Util.ExtractNum_lt e bitsBegin bucketLen
    have hchain : ChainInv entryLen bitsBegin bucketLen e pos mem := by
      constructor
      · exact hefull
      · exact helen
      · exact Nat.le_refl _
      · intro q hq hqfull
        have hq2 := hinv.homeLe q hqfull
        have := Util.suffixVal_lt_of_bucket_lt (mem.getD q []) e entryLen bitsBegin
          bucketLen (hinv.lenEq q hqfull) helen (by omega)
        omega
      · intro i hi _hiempty
        omega
    obtain ⟨q1, q2, q3, q4, q5⟩ := chainInsert_spec entryLen bitsBegin bucketLen B
      (B - pos) e pos mem rfl (by omega) hlen hinv hchain
    have hplace : (chainInsert entryLen bitsBegin (B - pos) e pos mem).2 < B := by
      apply hok
      simp [insertAll]
    obtain ⟨r1, r2⟩ := q5 hplace
    have hok' : ∀ p ∈ (insertAll entryLen bitsBegin bucketLen B input
        (chainInsert entryLen bitsBegin (B - pos) e pos mem).1).2, p < B := by
      intro p hp
      apply hok
      simp only [insertAll, List.mem_cons]
      right
      exact hp
    obtain ⟨w1, w2, w3, w4⟩ := ih (chainInsert entryLen bitsBegin (B - pos) e pos mem).1
      q3 r1 hin' hok'
    refine ⟨w1, w2, ?_, ?_⟩
    · -- occupied slots: input ++ (e :: occ mem), reassociated
      have step : List.Perm (occEntries (insertAll entryLen bitsBegin bucketLen B input
          (chainInsert entryLen bitsBegin (B - pos) e pos mem).1).1)
          (input ++ (e :: occEntries mem)) :=
        w3.trans (List.Perm.append_left input r2)
      have hmid : List.Perm (input ++ e :: occEntries mem)
          (e :: (input ++ occEntries mem)) := List.perm_middle
      simpa [insertAll] using step.trans hmid
    · have hBne : (chainInsert entryLen bitsBegin (B - pos) e pos mem).2 < B := hplace
      have := q4 B (by omega)
      simp only [insertAll]
      rw [w4, this]

/-- From the indexed sortedness of the region to pairwise sortedness of
the occupied slots read in order. -/
theorem pairwise_filter_of_indexed (entryLen bitsBegin : Nat) :
    ∀ (l : List Entry),
      (∀ i j, i < j → slotFull (l.getD i []) = true → slotFull (l.getD j []) = true →
        Util.suffixVal entryLen bitsBegin (l.getD i []) ≤
          Util.suffixVal entryLen bitsBegin (l.getD j [])) →
      (l.filter slotFull).Pairwise
        (fun a b => Util.suffixVal entryLen bitsBegin a ≤
          Util.suffixVal entryLen bitsBegin b) := by
  intro l
  induction l with
  | nil =>
    intro _
    simp
  | cons a l ih =>
    intro hyp
    have htail : ∀ i j, i < j → slotFull (l.getD i []) = true →
        slotFull (l.getD j []) = true →
        Util.suffixVal entryLen bitsBegin (l.getD i []) ≤
          Util.suffixVal entryLen bitsBegin (l.getD j []) := by
      intro i j hij hi hj
      have h0 : (a :: l).getD (i + 1) [] = l.getD i [] := by simp [List.getD]
      have h1 : (a :: l).getD (j + 1) [] = l.getD j [] := by simp [List.getD]
      have := hyp (i + 1) (j + 1) (by omega) (by rw [h0]; exact hi) (by rw [h1]; exact hj)
      rw [h0, h1] at this
      exact this
    by_cases ha : slotFull a = true
    · rw [List.filter_cons_of_pos ha]
      refine List.Pairwise.cons ?_ (ih htail)
      intro b hb
      have hbl : b ∈ l := List.mem_of_mem_filter hb
      have hbfull : slotFull b = true := List.of_mem_filter hb
      obtain ⟨j, hj, rfl⟩ := List.getElem_of_mem hbl
      have hgd : l.getD j [] = l[j] := List.getD_eq_getElem l [] hj
      have h0 : (a :: l).getD 0 [] = a := rfl
      have h1 : (a :: l).getD (j + 1) [] = l.getD j [] := by simp [List.getD]
      have := hyp 0 (j + 1) (by omega) (by rw [h0]; exact ha)
        (by rw [h1, hgd]; exact hbfull)
      rw [h0, h1, hgd] at this
      exact this
    · rw [List.filter_cons_of_neg (by simpa using ha)]
      exact ih htail

theorem take_set_of_le (l : List Entry) (i n : Nat) (a : Entry) (h : n ≤ i) :
    (l.set i a).take n = l.take n := by
  apply List.ext_getElem?
  intro m
  rcases Nat.lt_or_ge m n with hm | hm
  · rw [List.getElem?_take_of_lt hm, List.getElem?_take_of_lt hm,
      List.getElem?_set_ne (by omega)]
  · have h1 : (List.take n (l.set i a)).length ≤ m :=
      le_trans (List.length_take_le _ _) (by omega)
    have h2 : (List.take n l).length ≤ m :=
      le_trans (List.length_take_le _ _) (by omega)
    rw [List.getElem?_eq_none h1, List.getElem?_eq_none h2]

theorem take_append_cons (l1 l2 : List Entry) (x : Entry) :
    (l1 ++ x :: l2).take (l1.length + 1) = l1 ++ [x] := by
  induction l1 with
  | nil => rfl
  | cons a t ih => simp [List.take_succ_cons, ih]

/-- The compaction loop copies the occupied slots of the region, in slot
order, to the front, stopping after `numEntries` copies. -/
theorem compactLoop_spec (B N : Nat) :
    ∀ (fuel pos written : Nat) (mem orig : List Entry),
      fuel = B - pos → pos ≤ B → B + 1 = orig.length → mem.length = orig.length →
      mem.drop pos = orig.drop pos →
      written = min N ((orig.take pos).filter slotFull).length →
      mem.take written = ((orig.take pos).filter slotFull).take written →
      (compactLoop B N fuel pos written mem).2 =
        min N ((orig.take B).filter slotFull).length ∧
      (compactLoop B N fuel pos written mem).1.take
          (compactLoop B N fuel pos written mem).2 =
        ((orig.take B).filter slotFull).take N := by
  intro fuel
  induction fuel with
  | zero =>
    intro pos written mem orig hfuel hpos horig hmlen hdrop hw htake
    have hposB : pos = B := by omega
    subst hposB
    simp only [compactLoop]
    refine ⟨hw, ?_⟩
    rcases le_or_lt ((orig.take pos).filter slotFull).length N with hle | hlt
    · have hwv : written = ((orig.take pos).filter slotFull).length := by omega
      rw [htake, hwv, List.take_length, List.take_of_length_le hle]
    · have hwv : written = N := by omega
      rw [htake, hwv]
  | succ fuel ih =>
    intro pos written mem orig hfuel hpos horig hmlen hdrop hw htake
    have hposB : pos < B := by omega
    have hposOrig : pos < orig.length := by omega
    have hgd : mem.getD pos [] = orig.getD pos [] := by
      have h1 : (mem.drop pos).head? = (orig.drop pos).head? := by rw [hdrop]
      rw [List.head?_drop, List.head?_drop] at h1
      simp [List.getD, h1]
    have hfillen : ((orig.take pos).filter slotFull).length ≤ pos := by
      calc ((orig.take pos).filter slotFull).length ≤ (orig.take pos).length :=
            List.length_filter_le _ _
        _ ≤ pos := by simp
    have hwle : written ≤ pos := by omega
    have htakeSucc : orig.take (pos + 1) = orig.take pos ++ [orig.getD pos []] := by
      rw [List.getD_eq_getElem orig [] hposOrig, List.take_succ,
        List.getElem?_eq_getElem hposOrig]
      rfl
    have hdrop1 : mem.drop (pos + 1) = orig.drop (pos + 1) := by
      have h1 : List.drop 1 (List.drop pos mem) = List.drop 1 (List.drop pos orig) := by
        rw [hdrop]
      rwa [List.drop_drop, List.drop_drop] at h1
    simp only [compactLoop]
    by_cases hwN : written < N
    · rw [if_pos hwN]
      by_cases hemp : IsPositionEmpty (mem.getD pos []) = true
      · rw [if_pos hemp]
        have hempOrig : slotFull (orig.getD pos []) = false := by
          rw [← hgd]
          unfold slotFull
          rw [hemp]
          rfl
        have hfil : (orig.take (pos + 1)).filter slotFull =
            (orig.take pos).filter slotFull := by
          rw [htakeSucc, List.filter_append,
            List.filter_cons_of_neg (by rw [hempOrig]; simp)]
          simp
        have hw' : written = min N ((orig.take (pos + 1)).filter slotFull).length := by
          rw [hfil]
          exact hw
        have htake' : mem.take written =
            ((orig.take (pos + 1)).filter slotFull).take written := by
          rw [hfil]
          exact htake
        exact ih (pos + 1) written mem orig (by omega) (by omega) horig hmlen
          hdrop1 hw' htake'
      · rw [if_neg hemp]
        have hfullOrig : slotFull (orig.getD pos []) = true := by
          rw [← hgd]
          unfold slotFull
          cases h : IsPositionEmpty (mem.getD pos []) with
          | false => rfl
          | true => exact absurd h hemp
        have hfil : (orig.take (pos + 1)).filter slotFull =
            (orig.take pos).filter slotFull ++ [orig.getD pos []] := by
          rw [htakeSucc, List.filter_append, List.filter_cons_of_pos hfullOrig]
          simp
        have hlenEq : ((orig.take pos).filter slotFull).length = written := by omega
        have hwlt : written < mem.length := by omega
        have hmlen' : (mem.set written (mem.getD pos [])).length = orig.length := by
          simpa using hmlen
        have hdrop' : (mem.set written (mem.getD pos [])).drop (pos + 1) =
            orig.drop (pos + 1) := by
          rw [List.drop_set_of_lt _ _ (by omega), hdrop1]
        have hw' : written + 1 =
            min N ((orig.take (pos + 1)).filter slotFull).length := by
          rw [hfil]
          simp only [List.length_append, List.length_singleton]
          omega
        have htake' : (mem.set written (mem.getD pos [])).take (written + 1) =
            ((orig.take (pos + 1)).filter slotFull).take (written + 1) := by
          have hset : (mem.set written (mem.getD pos [])).take (written + 1) =
              mem.take written ++ [mem.getD pos []] := by
            rw [set_eq_take_cons_drop mem written _ hwlt]
            have hlt : (mem.take written).length = written := by
              simp
              omega
            calc (mem.take written ++ mem.getD pos [] ::
                  mem.drop (written + 1)).take (written + 1)
                = (mem.take written ++ mem.getD pos [] ::
                   mem.drop (written + 1)).take ((mem.take written).length + 1) := by
                  rw [hlt]
              _ = mem.take written ++ [mem.getD pos []] := take_append_cons _ _ _
          have hfl : ((orig.take (pos + 1)).filter slotFull).take (written + 1) =
              ((orig.take pos).filter slotFull) ++ [orig.getD pos []] := by
            rw [hfil]
            calc (((orig.take pos).filter slotFull) ++ [orig.getD pos []]).take
                  (written + 1)
                = (((orig.take pos).filter slotFull) ++ orig.getD pos [] :: []).take
                   (((orig.take pos).filter slotFull).length + 1) := by
                  rw [hlenEq]
              _ = ((orig.take pos).filter slotFull) ++ [orig.getD pos []] :=
                  take_append_cons _ _ _
          rw [hset, hfl, htake, hgd]
          have htk : ((orig.take pos).filter slotFull).take written =
              (orig.take pos).filter slotFull := by
            apply List.take_of_length_le
            omega
          rw [htk]
        exact ih (pos + 1) (written + 1) (mem.set written (mem.getD pos [])) orig
          (by omega) (by omega) horig hmlen' hdrop' hw' htake'
    · rw [if_neg hwN]
      have hwv : written = N := by omega
      have hpref : orig.take pos = (orig.take B).take pos := by
        rw [List.take_take]
        congr 1
        omega
      have hsplit : orig.take B = orig.take pos ++ (orig.take B).drop pos := by
        rw [hpref, List.take_append_drop]
      have hmono : ((orig.take pos).filter slotFull).length ≤
          ((orig.take B).filter slotFull).length := by
        rw [hsplit, List.filter_append, List.length_append]
        omega
      refine ⟨by omega, ?_⟩
      have hNle : N ≤ ((orig.take pos).filter slotFull).length := by omega
      have htN : ((orig.take B).filter slotFull).take N =
          ((orig.take pos).filter slotFull).take N := by
        rw [hsplit, List.filter_append, List.take_append_of_le_length hNle]
      rw [htN, ← hwv, htake]

theorem slotFull_replicate_getD (entryLen n j : Nat) :
    slotFull ((List.replicate n (zeroEntry entryLen)).getD j []) = false := by
  rcases Nat.lt_or_ge j n with hj | hj
  · rw [List.getD_eq_getElem _ [] (by simpa using hj)]
    simp only [List.getElem_replicate]
    exact slotFull_zeroEntry entryLen
  · rw [List.getD_eq_default _ [] (by simpa using hj)]
    exact slotFull_nil

theorem occEntries_replicate (entryLen n : Nat) :
    occEntries (List.replicate n (zeroEntry entryLen)) = [] := by
  unfold occEntries
  rw [List.filter_eq_nil_iff]
  intro a ha
  have := List.eq_of_mem_replicate ha
  subst this
  rw [slotFull_zeroEntry]
  simp

/-- Correctness of `UniformSort::SortToMemory` under the preconditions
plus the no-overflow condition `sortOk`: the first `N` output slots are a
permutation of the input, sorted non-decreasingly on the bit suffix from
`bitsBegin`, and `entries_written` equals `N` (the assert of
uniformsort.hpp line 83 holds). -/
theorem SortToMemory_spec (input : List Entry) (entryLen bitsBegin : Nat)
    (hlen : ∀ e ∈ input, e.length = entryLen)
    (hfull : ∀ e ∈ input, slotFull e = true)
    (hok : sortOk input entryLen bitsBegin = true) :
    List.Perm (sortOutput input entryLen bitsBegin) input ∧
    (sortOutput input entryLen bitsBegin).Pairwise
      (fun a b => Util.suffixVal entryLen bitsBegin a ≤
        Util.suffixVal entryLen bitsBegin b) ∧
    (SortToMemory input entryLen bitsBegin).2 = input.length := by
  have hB : Util.RoundSize input.length = 2 ^ Util.bucketLength input.length := rfl
  have hmem0len : (List.replicate (Util.RoundSize input.length + 1)
      (zeroEntry entryLen)).length = Util.RoundSize input.length + 1 := by simp
  have hinv0 : SortInv entryLen bitsBegin (Util.bucketLength input.length)
      (List.replicate (Util.RoundSize input.length + 1) (zeroEntry entryLen)) := by
    constructor <;> intro i
    · intro h
      rw [slotFull_replicate_getD] at h
      exact absurd h (by simp)
    · intro h
      rw [slotFull_replicate_getD] at h
      exact absurd h (by simp)
    · intro j _ _ h
      rw [slotFull_replicate_getD] at h
      exact absurd h (by simp)
    · intro j _ _ h
      rw [slotFull_replicate_getD] at h
      exact absurd h (by simp)
  have hin : ∀ e ∈ input, e.length = entryLen ∧ slotFull e = true := by
    intro e he
    exact ⟨hlen e he, hfull e he⟩
  have hokAll : ∀ p ∈ (insertAll entryLen bitsBegin (Util.bucketLength input.length)
      (Util.RoundSize input.length) input
      (List.replicate (Util.RoundSize input.length + 1) (zeroEntry entryLen))).2,
      p < Util.RoundSize input.length := by
    intro p hp
    have := List.all_eq_true.mp hok p hp
    simpa using this
  obtain ⟨w1, w2, w3, w4⟩ := insertAll_spec entryLen bitsBegin
    (Util.bucketLength input.length) (Util.RoundSize input.length) hB input
    (List.replicate (Util.RoundSize input.length + 1) (zeroEntry entryLen))
    hmem0len hinv0 hin hokAll
  set mi := (insertAll entryLen bitsBegin (Util.bucketLength input.length)
    (Util.RoundSize input.length) input
    (List.replicate (Util.RoundSize input.length + 1) (zeroEntry entryLen))).1 with hmi
  rw [occEntries_replicate, List.append_nil] at w3
  -- the slot one past the region is still empty
  have hlast : slotFull (mi.getD (Util.RoundSize input.length) []) = false := by
    rw [w4]
    exact slotFull_replicate_getD _ _ _
  -- the occupied slots are exactly those of the first `B` slots
  have hocc : occEntries mi = (mi.take (Util.RoundSize input.length)).filter slotFull := by
    have hBlt : Util.RoundSize input.length < mi.length := by omega
    have hdecomp := list_eq_take_cons_drop mi (Util.RoundSize input.length) hBlt
    have hdropnil : mi.drop (Util.RoundSize input.length + 1) = [] := by
      apply List.drop_eq_nil_of_le
      omega
    rw [hdropnil] at hdecomp
    unfold occEntries
    conv_lhs => rw [hdecomp]
    rw [List.filter_append, List.filter_cons_of_neg (by rw [hlast]; simp)]
    simp
  have hLperm : List.Perm ((mi.take (Util.RoundSize input.length)).filter slotFull)
      input := by
    rw [← hocc]
    exact w3
  have hLlen : ((mi.take (Util.RoundSize input.length)).filter slotFull).length =
      input.length := hLperm.length_eq
  have hpair : ((mi.take (Util.RoundSize input.length)).filter slotFull).Pairwise
      (fun a b => Util.suffixVal entryLen bitsBegin a ≤
        Util.suffixVal entryLen bitsBegin b) := by
    rw [← hocc]
    exact pairwise_filter_of_indexed entryLen bitsBegin mi w2.sorted
  -- run the compaction
  obtain ⟨c1, c2⟩ := compactLoop_spec (Util.RoundSize input.length) input.length
    (Util.RoundSize input.length) 0 0 mi mi rfl (by omega) (by omega) rfl rfl
    (by simp) (by simp)
  have hc1 : (compactLoop (Util.RoundSize input.length) input.length
      (Util.RoundSize input.length) 0 0 mi).2 = input.length := by
    rw [c1, hLlen]
    simp
  have hSort : SortToMemory input entryLen bitsBegin =
      compactLoop (Util.RoundSize input.length) input.length
        (Util.RoundSize input.length) 0 0 mi := rfl
  have hout : sortOutput input entryLen bitsBegin =
      (mi.take (Util.RoundSize input.length)).filter slotFull := by
    unfold sortOutput
    rw [hSort]
    rw [hc1] at c2
    rw [c2]
    exact List.take_of_length_le (by omega)
  refine ⟨?_, ?_, ?_⟩
  · rw [hout]
    exact hLperm
  · rw [hout]
    exact hpair
  · rw [hSort]
    exact hc1

/-- The collision loop can move the placement only rightwards, one slot at
a time, and gives up as soon as it stands at the end of the region, so the
placement never lands beyond slot `B`. -/
theorem chainInsert_place_le (entryLen bitsBegin B : Nat) :
    ∀ fuel cur pos mem, fuel = B - pos → pos ≤ B →
      (chainInsert entryLen bitsBegin fuel cur pos mem).2 ≤ B := by
  intro fuel
  induction fuel with
  | zero =>
    intro cur pos mem _hfuel hpos
    simpa [chainInsert] using hpos
  | succ fuel ih =>
    intro cur pos mem hfuel hpos
    have hposB : pos < B := by omega
    simp only [chainInsert]
    by_cases hemp : IsPositionEmpty (mem.getD pos []) = true
    · rw [if_pos hemp]
      simpa using Nat.le_of_lt hposB
    · rw [if_neg hemp]
      by_cases hswap : Util.MemCmpBits (mem.getD pos []) cur entryLen bitsBegin > 0
      · rw [if_pos hswap]
        exact ih _ _ _ (by omega) (by omega)
      · rw [if_neg hswap]
        exact ih _ _ _ (by omega) (by omega)

theorem insertAll_place_le (entryLen bitsBegin bucketLen B : Nat)
    (hB : B = 2 ^ bucketLen) :
    ∀ (input : List Entry) (mem : List Entry),
      ∀ p ∈ (insertAll entryLen bitsBegin bucketLen B input mem).2, p ≤ B := by
  intro input
  induction input with
  | nil =>
    intro mem p hp
    simp [insertAll] at hp
  | cons e input ih =>
    intro mem p hp
    simp only [insertAll, List.mem_cons] at hp
    rcases hp with rfl | hp
    · apply chainInsert_place_le entryLen bitsBegin B _ _ _ _ rfl
      have := Util.ExtractNum_lt e bitsBegin bucketLen
      omega
    · exact ih _ p hp

end UniformSort

/-- C10 (counterexample): with two one-byte entries whose bucket field is
the top bucket, the second entry's collision chain runs off the end of the
region and is placed at slot 4 = `RoundSize 2`, i.e. exactly at
`memory_len`; the preconditions of the claim (fixed width, entries nonzero
after `begin_bits`) hold, so the claim that every placement lands strictly
below `memory_len` is false. -/
theorem C10_counterexample :
    (∀ e ∈ ([[254], [255]] : List Entry), e.length = 1 ∧ Util.suffixVal 1 0 e ≠ 0) ∧
    ¬ (∀ p ∈ UniformSort.placements [[254], [255]] 1 0,
        p < Util.RoundSize (List.length ([[254], [255]] : List Entry))) := by
  decide

/-- C10 (amended): under `SortToMemory`'s preconditions every placement of
the insertion loop lands at a slot at most `RoundSize N` — i.e. at byte
position at most `memory_len`, the first byte past the output region; the
bound `memory_len` itself is attained (see the counterexample), so the
write at `memory_len` is reachable but no write lands strictly beyond
it. -/
theorem C10_placements_le (input : List Entry) (entryLen bitsBegin : Nat) :
    ∀ p ∈ UniformSort.placements input entryLen bitsBegin,
      p ≤ Util.RoundSize input.length := by
  intro p hp
  exact UniformSort.insertAll_place_le entryLen bitsBegin
    (Util.bucketLength input.length) (Util.RoundSize input.length) rfl input _ p hp

theorem C10_placements_le_witness :
    4 ∈ UniformSort.placements [[254], [255]] 1 0 ∧
    4 ≤ Util.RoundSize (List.length ([[254], [255]] : List Entry)) :=
  ⟨by decide, C10_placements_le [[254], [255]] 1 0 4 (by decide)⟩

/-- C1 (counterexample): the input `[[255], [255]]` satisfies the claim's
preconditions (one-byte entries, nonzero after bit 0, two entries fit in
the region of `RoundSize 2 = 4` slots), yet the output of `SortToMemory`
is not a permutation of the input: the second entry is placed at
`memory_len`, outside the region, and the compaction pass loses it. -/
theorem C1_counterexample :
    (∀ e ∈ ([[255], [255]] : List Entry), e.length = 1 ∧ Util.suffixVal 1 0 e ≠ 0) ∧
    ¬ List.Perm (UniformSort.sortOutput [[255], [255]] 1 0) [[255], [255]] := by
  decide

/-- C1 (amended): for fixed-width entries that are nonzero after
`begin_bits` and whose insertion chains all place strictly inside the
region (`sortOk`; the stated preconditions alone do not guarantee this,
see the counterexample), the first `N` output slots of `SortToMemory` are
a permutation of the input that is non-decreasing under the bit
comparison `MemCmpBits` starting at `bits_begin`, and `entries_written`
equals `N`. -/
theorem C1_sortToMemory_sorted_perm (input : List Entry) (entryLen bitsBegin : Nat)
    (hlen : ∀ e ∈ input, e.length = entryLen)
    (hnz : ∀ e ∈ input, Util.suffixVal entryLen bitsBegin e ≠ 0)
    (hok : UniformSort.sortOk input entryLen bitsBegin = true) :
    List.Perm (UniformSort.sortOutput input entryLen bitsBegin) input ∧
    (UniformSort.sortOutput input entryLen bitsBegin).Pairwise
      (fun a b => Util.MemCmpBits a b entryLen bitsBegin ≤ 0) ∧
    (UniformSort.SortToMemory input entryLen bitsBegin).2 = input.length := by
  have hfull : ∀ e ∈ input, UniformSort.slotFull e = true := by
    intro e he
    rw [UniformSort.slotFull_iff]
    exact UniformSort.not_isPositionEmpty_of_suffix_ne e entryLen bitsBegin
      (hlen e he) (hnz e he)
  obtain ⟨h1, h2, h3⟩ := UniformSort.SortToMemory_spec input entryLen bitsBegin
    hlen hfull hok
  refine ⟨h1, ?_, h3⟩
  apply h2.imp
  intro a b hab
  unfold Util.MemCmpBits
  omega

theorem C1_sortToMemory_sorted_perm_witness :
    UniformSort.sortOk [[2], [1]] 1 0 = true ∧
    List.Perm (UniformSort.sortOutput [[2], [1]] 1 0) [[2], [1]] ∧
    (UniformSort.sortOutput [[2], [1]] 1 0).Pairwise
      (fun a b => Util.MemCmpBits a b 1 0 ≤ 0) :=
  ⟨by decide,
    (C1_sortToMemory_sorted_perm [[2], [1]] 1 0 (by decide) (by decide) (by decide)).1,
    (C1_sortToMemory_sorted_perm [[2], [1]] 1 0 (by decide) (by decide) (by decide)).2.1⟩


/-- The state of a `SortManager` (src/unnamed/part_000, lines 30-248).
Byte positions (`final_position_start`, `final_position_end`,
`prev_bucket_position_start`, read positions) are kept in bytes as in the
source; the byte buffers (`buckets_`, `memory_start_`, `prev_bucket_buf_`)
are modelled at entry granularity, which the source code's pointer
arithmetic respects throughout. -/
structure SortManagerState where
  buckets : List (List Entry)
  memory : List Entry
  memoryAllocated : Bool
  memorySize : Nat
  entrySize : Nat
  beginBits : Nat
  logNumBuckets : Nat
  prevBucketBufSize : Nat
  prevBucketBuf : List Entry
  prevBucketPositionStart : Nat
  done : Bool
  finalPositionStart : Nat
  finalPositionEnd : Nat
  nextBucketToSort : Nat
  deriving Repr, DecidableEq

namespace SortManager

/-- The `SortManager` constructor (part_000 lines 32-53): `num_buckets`
empty byte vectors, all counters zero.  `prevBufSize` stands for the
`prev_bucket_buf_size` member; modelled from the spec: the source formula
`2 * (stripe_size + 10 * (kBC / 2^kExtraBits)) * entry_size` uses the
constants of the missing pos_constants.hpp, and the spec (section 4.5)
describes it only as a configurable tail size, so the already-multiplied
byte value is taken as the constructor argument here. -/
def mkSortManager (memorySize numBuckets logNumBuckets entrySize beginBits
    prevBufSize : Nat) : SortManagerState :=
  { buckets := List.replicate numBuckets []
    memory := []
    memoryAllocated := false
    memorySize := memorySize
    entrySize := entrySize
    beginBits := beginBits
    logNumBuckets := logNumBuckets
    prevBucketBufSize := prevBufSize
    prevBucketBuf := []
    prevBucketPositionStart := 0
    done := false
    finalPositionStart := 0
    finalPositionEnd := 0
    nextBucketToSort := 0 }

/-- `SortManager::AddToCache` (part_000 lines 61-70): refuse when `done`
(the source throws `InvalidValueException("Already finished.")`), else
append the entry to the bucket selected by the `log_num_buckets` bits at
`begin_bits`. -/
def AddToCache (s : SortManagerState) (entry : Entry) :
    Except ChiaError SortManagerState :=
  if s.done then .error .InvalidValue
  else
    let b := Util.ExtractNum entry s.beginBits s.logNumBuckets
    .ok { s with buckets := s.buckets.set b (s.buckets.getD b [] ++ [entry]) }

/-- `SortManager::SortBucket` (part_000 lines 205-247): sort the next
bucket into the memory buffer with `UniformSort::SortToMemory` at
`begin_bits_ + log_num_buckets_`, advance the window.  Errors: no bucket
left (`InvalidValueException`), bucket larger than
`entries_fit_in_memory` (`InsufficientMemoryException`). -/
def SortBucket (s : SortManagerState) : Except ChiaError SortManagerState :=
  if s.buckets.length ≤ s.nextBucketToSort then .error .InvalidValue
  else
    let b := s.buckets.getD s.nextBucketToSort []
    if s.memorySize / s.entrySize < b.length then .error .InsufficientMemory
    else .ok { s with
      done := true
      memoryAllocated := true
      memory := (UniformSort.SortToMemory b s.entrySize
        (s.beginBits + s.logNumBuckets)).1
      finalPositionStart := s.finalPositionEnd
      finalPositionEnd := s.finalPositionEnd + b.length * s.entrySize
      nextBucketToSort := s.nextBucketToSort + 1 }

/-- The `while (position >= final_position_end) SortBucket();` loop of
`ReadEntry` (part_000 lines 120-122).  The fuel is
`buckets.length - nextBucketToSort` at the outer call; when it runs out
the guard can only still hold with no bucket left, in which case
`SortBucket` itself delivers the source's error. -/
def sortUntil (p : Nat) : Nat → SortManagerState → Except ChiaError SortManagerState
  | 0, s =>
    if s.finalPositionEnd ≤ p then
      (SortBucket s).bind (fun _ => .error .InvalidValue)
    else .ok s
  | fuel + 1, s =>
    if s.finalPositionEnd ≤ p then
      match SortBucket s with
      | .ok s' => sortUntil p fuel s'
      | .error e => .error e
    else .ok s

/-- `SortManager::ReadEntry` (part_000 lines 109-131).  Backward reads are
served from the previous-bucket buffer when at or after
`prev_bucket_position_start` and fail with `InvalidStateException`
otherwise; forward reads sort as many buckets as needed and return a
pointer into the sort buffer. -/
def ReadEntry (s : SortManagerState) (position : Nat) :
    Except ChiaError (Entry × SortManagerState) :=
  if position < s.finalPositionStart then
    if position < s.prevBucketPositionStart then .error .InvalidState
    else .ok (s.prevBucketBuf.getD
      ((position - s.prevBucketPositionStart) / s.entrySize) [], s)
  else
    match sortUntil position (s.buckets.length - s.nextBucketToSort) s with
    | .error e => .error e
    | .ok s' =>
      if position < s'.finalPositionEnd then
        if s'.finalPositionStart ≤ position then
          .ok (s'.memory.getD
            ((position - s'.finalPositionStart) / s'.entrySize) [], s')
        else .error .InvalidValue
      else .error .InvalidValue

/-- `SortManager::TriggerNewBucket` (part_000 lines 143-167): position
must lie inside the current window; the tail of the window from
`position` is copied into the zero-filled previous-bucket buffer (when
the sort buffer exists), the next bucket is sorted, and
`prev_bucket_position_start` is set to `position`. -/
def TriggerNewBucket (s : SortManagerState) (position : Nat) :
    Except ChiaError SortManagerState :=
  if s.finalPositionEnd < position then .error .InvalidValue
  else if position < s.finalPositionStart then .error .InvalidValue
  else
    let cacheSlots := (s.finalPositionEnd - position) / s.entrySize
    let bufSlots := s.prevBucketBufSize / s.entrySize
    let cache := (s.memory.drop ((position - s.finalPositionStart) / s.entrySize)).take
      cacheSlots
    let pad := List.replicate (bufSlots - cacheSlots) (UniformSort.zeroEntry s.entrySize)
    let s1 := if s.memoryAllocated then { s with prevBucketBuf := cache ++ pad } else s
    match SortBucket s1 with
    | .ok s2 => .ok { s2 with prevBucketPositionStart := position }
    | .error e => .error e

/-- Add a list of entries through `AddToCache`, stopping at the first
error. -/
def addAll : SortManagerState → List Entry → Except ChiaError SortManagerState
  | s, [] => .ok s
  | s, e :: es =>
    match AddToCache s e with
    | .ok s' => addAll s' es
    | .error err => .error err

/-- Read `n` entries through `ReadEntry` at consecutive entry-aligned
positions `i * entry_size, (i+1) * entry_size, ...`, threading the
manager state. -/
def readAll : SortManagerState → Nat → Nat → Except ChiaError (List Entry)
  | _, _, 0 => .ok []
  | s, i, n + 1 =>
    match ReadEntry s (i * s.entrySize) with
    | .error e => .error e
    | .ok (e, s') =>
      match readAll s' (i + 1) n with
      | .error err => .error err
      | .ok rest => .ok (e :: rest)

end SortManager

namespace SortManager

/-- The total number of bytes still held in unsorted buckets. -/
def remainingSize (s : SortManagerState) : Nat :=
  ((s.buckets.drop s.nextBucketToSort).map (fun b => b.length * s.entrySize)).sum

theorem sortUntil_isOk : ∀ (fuel : Nat) (s : SortManagerState) (p : Nat),
    fuel = s.buckets.length - s.nextBucketToSort →
    p < s.finalPositionEnd + remainingSize s →
    (∀ b ∈ s.buckets.drop s.nextBucketToSort, b.length ≤ s.memorySize / s.entrySize) →
    ∃ s', sortUntil p fuel s = .ok s' ∧
      (s.finalPositionStart ≤ p → s'.finalPositionStart ≤ p) ∧
      p < s'.finalPositionEnd := by
  intro fuel
  induction fuel with
  | zero =>
    intro s p hfuel hcov _hfit
    have hnext : s.buckets.length ≤ s.nextBucketToSort := by omega
    have hdropnil : s.buckets.drop s.nextBucketToSort = [] :=
      List.drop_eq_nil_of_le hnext
    have hrem : remainingSize s = 0 := by
      unfold remainingSize
      rw [hdropnil]
      rfl
    have hfpe : p < s.finalPositionEnd := by omega
    refine ⟨s, ?_, fun h => h, hfpe⟩
    simp only [sortUntil]
    rw [if_neg (by omega)]
  | succ fuel ih =>
    intro s p hfuel hcov hfit
    by_cases hguard : s.finalPositionEnd ≤ p
    · have hremPos : 0 < remainingSize s := by omega
      have hdropne : s.buckets.drop s.nextBucketToSort ≠ [] := by
        intro hnil
        unfold remainingSize at hremPos
        rw [hnil] at hremPos
        simp at hremPos
      have hnext : s.nextBucketToSort < s.buckets.length := by
        by_contra hc
        exact hdropne (List.drop_eq_nil_of_le (by omega))
      have hdropcons : s.buckets.drop s.nextBucketToSort =
          s.buckets.getD s.nextBucketToSort [] :: s.buckets.drop (s.nextBucketToSort + 1) := by
        rw [List.drop_eq_getElem_cons hnext, List.getD_eq_getElem _ [] hnext]
      have hbfit : (s.buckets.getD s.nextBucketToSort []).length ≤
          s.memorySize / s.entrySize := by
        apply hfit
        rw [hdropcons]
        exact List.mem_cons_self _ _
      have hsb : SortBucket s = .ok { s with
          done := true
          memoryAllocated := true
          memory := (UniformSort.SortToMemory (s.buckets.getD s.nextBucketToSort [])
            s.entrySize (s.beginBits + s.logNumBuckets)).1
          finalPositionStart := s.finalPositionEnd
          finalPositionEnd := s.finalPositionEnd +
            (s.buckets.getD s.nextBucketToSort []).length * s.entrySize
          nextBucketToSort := s.nextBucketToSort + 1 } := by
        unfold SortBucket
        rw [if_neg (by omega), if_neg (by omega)]
      set s2 := { s with
          done := true
          memoryAllocated := true
          memory := (UniformSort.SortToMemory (s.buckets.getD s.nextBucketToSort [])
            s.entrySize (s.beginBits + s.logNumBuckets)).1
          finalPositionStart := s.finalPositionEnd
          finalPositionEnd := s.finalPositionEnd +
            (s.buckets.getD s.nextBucketToSort []).length * s.entrySize
          nextBucketToSort := s.nextBucketToSort + 1 } with hs2
      have hrem2 : remainingSize s =
          (s.buckets.getD s.nextBucketToSort []).length * s.entrySize +
            remainingSize s2 := by
      -- the head of the unsorted buckets accounts for the window growth
        unfold remainingSize
        rw [hdropcons]
        simp [hs2]
      have hcov2 : p < s2.finalPositionEnd + remainingSize s2 := by
        have : s2.finalPositionEnd = s.finalPositionEnd +
            (s.buckets.getD s.nextBucketToSort []).length * s.entrySize := rfl
        omega
      have hfit2 : ∀ b ∈ s2.buckets.drop s2.nextBucketToSort,
          b.length ≤ s2.memorySize / s2.entrySize := by
        intro b hb
        apply hfit
        rw [hdropcons]
        exact List.mem_cons_of_mem _ hb
      obtain ⟨s', hs', hfps', hfpe'⟩ := ih s2 p (by simp [hs2]; omega) hcov2 hfit2
      refine ⟨s', ?_, ?_, hfpe'⟩
      · simp only [sortUntil]
        rw [if_pos hguard, hsb]
        exact hs'
      · intro _
        apply hfps'
        exact hguard
    · refine ⟨s, ?_, fun h => h, by omega⟩
      simp only [sortUntil]
      rw [if_neg hguard]

end SortManager

/-- C7 (counterexample): on a fresh manager with two buckets holding one
and two one-byte entries, a read at byte position 2 lies beyond both the
(empty) current window and the whole first bucket, i.e. across more than
one bucket boundary, and no `TriggerNewBucket` was issued; the claim says
such a read fails with `ReadOutOfWindow`, but the code simply sorts both
buckets during the read and succeeds, returning the entry `[192]`. -/
theorem C7_counterexample :
    ((SortManager.addAll (SortManager.mkSortManager 10 2 1 1 0 4)
      [[64], [128], [192]]).bind
      (fun s0 => (SortManager.ReadEntry s0 2).map Prod.fst)) = .ok [192] := by
  rfl

/-- C7 (amended): backward reads (`position < final_position_start`) fail
with the `InvalidStateException` of part_000 line 113 exactly when the
position lies before `prev_bucket_position_start`; at or after it they
succeed from the previous-bucket buffer, and lie within
`prev_bucket_buf_size` of the window start whenever the retained tail
fits the buffer.  Forward reads beyond the current window do not fail at
bucket boundaries: they succeed whenever the remaining buckets cover the
position and each fits in memory, however many boundaries are crossed. -/
theorem C7_readEntry_window :
    (∀ (s : SortManagerState) (p : Nat), p < s.finalPositionStart →
      (SortManager.ReadEntry s p = .error ChiaError.InvalidState ↔
        p < s.prevBucketPositionStart)) ∧
    (∀ (s : SortManagerState) (p : Nat), p < s.finalPositionStart →
      s.prevBucketPositionStart ≤ p →
      s.finalPositionStart - s.prevBucketPositionStart ≤ s.prevBucketBufSize →
      (SortManager.ReadEntry s p).isOk = true ∧
      s.finalPositionStart - p ≤ s.prevBucketBufSize) ∧
    (∀ (s : SortManagerState) (p : Nat), s.finalPositionStart ≤ p →
      p < s.finalPositionEnd + SortManager.remainingSize s →
      (∀ b ∈ s.buckets.drop s.nextBucketToSort,
        b.length ≤ s.memorySize / s.entrySize) →
      (SortManager.ReadEntry s p).isOk = true) := by
  refine ⟨?_, ?_, ?_⟩
  · intro s p hp
    unfold SortManager.ReadEntry
    rw [if_pos hp]
    by_cases hb : p < s.prevBucketPositionStart
    · rw [if_pos hb]
      simp [hb]
    · rw [if_neg hb]
      simp [hb]
  · intro s p hp hb hfit
    unfold SortManager.ReadEntry
    rw [if_pos hp, if_neg (by omega)]
    exact ⟨rfl, by omega⟩
  · intro s p hp hcov hfit
    unfold SortManager.ReadEntry
    rw [if_neg (by omega)]
    obtain ⟨s', hs', hfps', hfpe'⟩ := SortManager.sortUntil_isOk
      (s.buckets.length - s.nextBucketToSort) s p rfl hcov hfit
    rw [hs']
    simp only
    rw [if_pos hfpe', if_pos (hfps' hp)]
    rfl

/-- A manager state in the middle of its read pass, used to witness the
backward-read rules: window `[2, 3)`, previous-bucket window `[1, 2)`. -/
def c7WitnessState : SortManagerState :=
  { SortManager.mkSortManager 10 2 1 1 0 4 with
    finalPositionStart := 2
    finalPositionEnd := 3
    prevBucketPositionStart := 1
    prevBucketBuf := [[5], [6]]
    memory := [[9]]
    nextBucketToSort := 2
    memoryAllocated := true
    done := true }

theorem C7_readEntry_window_witness :
    SortManager.ReadEntry c7WitnessState 0 = .error ChiaError.InvalidState ∧
    (SortManager.ReadEntry c7WitnessState 1).isOk = true :=
  ⟨(C7_readEntry_window.1 c7WitnessState 0 (by decide)).mpr (by decide),
   (C7_readEntry_window.2.1 c7WitnessState 1 (by decide) (by decide) (by decide)).1⟩

/-- C9 (counterexample): build a manager, add an entry, read it back
(which sorts the first bucket and sets `done`), then call `AddToCache`
again: the source throws `InvalidValueException("Already finished.")`
(part_000 line 64), not the `InvalidStateException` the claim names. -/
theorem C9_counterexample :
    ((SortManager.addAll (SortManager.mkSortManager 10 2 1 1 0 4) [[1]]).bind
      (fun s0 => (SortManager.ReadEntry s0 0).bind
        (fun r => SortManager.AddToCache r.2 [7]))) =
      .error ChiaError.InvalidValue ∧
    ChiaError.InvalidValue ≠ ChiaError.InvalidState :=
  ⟨rfl, by decide⟩

/-- C9 (amended): every successful `SortBucket` (hence the first sorted
bucket of a read) marks the manager `done`, and `AddToCache` on a done
manager fails with the `InvalidValueException` of part_000 line 64 — not
`InvalidState` — before touching any bucket (the error is raised prior to
the bucket append, and no updated state is produced). -/
theorem C9_addToCache_after_sort :
    (∀ (s s' : SortManagerState), SortManager.SortBucket s = .ok s' →
      s'.done = true) ∧
    (∀ (s : SortManagerState) (e : Entry), s.done = true →
      SortManager.AddToCache s e = .error ChiaError.InvalidValue) := by
  constructor
  · intro s s' h
    unfold SortManager.SortBucket at h
    by_cases h1 : s.buckets.length ≤ s.nextBucketToSort
    · rw [if_pos h1] at h
      cases h
    · rw [if_neg h1] at h
      by_cases h2 : s.memorySize / s.entrySize <
          (s.buckets.getD s.nextBucketToSort []).length
      · rw [if_pos h2] at h
        cases h
      · rw [if_neg h2] at h
        cases h
        rfl
  · intro s e h
    unfold SortManager.AddToCache
    rw [if_pos h]

theorem C9_addToCache_after_sort_witness :
    SortManager.AddToCache
      { SortManager.mkSortManager 10 2 1 1 0 4 with done := true } [7] =
      .error ChiaError.InvalidValue :=
  C9_addToCache_after_sort.2 _ [7] rfl

namespace SortManager

/-- The number of entries held in the first `j` buckets. -/
def cumLen (G : List (List Entry)) (j : Nat) : Nat :=
  ((G.take j).map List.length).sum

/-- The per-bucket contents after adding `es` to a fresh manager: bucket
`b` holds, in insertion order, the entries whose `logNumBuckets`-bit field
at `beginBits` equals `b`. -/
def bucketsOf (es : List Entry) (beginBits logNumBuckets numBuckets : Nat) :
    List (List Entry) :=
  (List.range numBuckets).map
    (fun b => es.filter (fun e => Util.ExtractNum e beginBits logNumBuckets == b))

/-- The expected read stream: the per-bucket uniform-sort outputs,
concatenated in bucket order. -/
def flattenSorted (G : List (List Entry)) (entryLen bitsBegin : Nat) : List Entry :=
  (G.map (fun b => UniformSort.sortOutput b entryLen bitsBegin)).flatten

theorem cumLen_zero (G : List (List Entry)) : cumLen G 0 = 0 := rfl

theorem cumLen_succ (G : List (List Entry)) (j : Nat) (h : j < G.length) :
    cumLen G (j + 1) = cumLen G j + (G.getD j []).length := by
  unfold cumLen
  rw [List.take_succ, List.getElem?_eq_getElem h, List.map_append, List.sum_append,
    List.getD_eq_getElem G [] h]
  simp

theorem cumLen_of_le (G : List (List Entry)) (j : Nat) (h : G.length ≤ j) :
    cumLen G j = cumLen G G.length := by
  unfold cumLen
  rw [List.take_of_length_le h, List.take_length]

theorem cumLen_mono (G : List (List Entry)) (j k : Nat) (h : j ≤ k) :
    cumLen G j ≤ cumLen G k := by
  induction k with
  | zero =>
    have : j = 0 := by omega
    subst this
    exact Nat.le_refl _
  | succ k ih =>
    rcases Nat.lt_or_ge j (k + 1) with hj | hj
    · have hjk : j ≤ k := by omega
      rcases Nat.lt_or_ge k G.length with hk | hk
      · rw [cumLen_succ G k hk]
        exact le_trans (ih hjk) (Nat.le_add_right _ _)
      · rw [cumLen_of_le G (k + 1) (by omega), ← cumLen_of_le G k hk]
        exact ih hjk
    · have : j = k + 1 := by omega
      subst this
      exact Nat.le_refl _

theorem cumLen_cons (b : List Entry) (G : List (List Entry)) (j : Nat) :
    cumLen (b :: G) (j + 1) = b.length + cumLen G j := by
  unfold cumLen
  rw [List.take_succ_cons]
  simp

theorem addAll_spec : ∀ (es : List Entry) (s : SortManagerState),
    s.done = false →
    (∀ e ∈ es, Util.ExtractNum e s.beginBits s.logNumBuckets < s.buckets.length) →
    ∃ bk, addAll s es = .ok { s with buckets := bk } ∧
      bk.length = s.buckets.length ∧
      ∀ b, bk.getD b [] = s.buckets.getD b [] ++
        es.filter (fun e => Util.ExtractNum e s.beginBits s.logNumBuckets == b) := by
  intro es
  induction es with
  | nil =>
    intro s _hdone _hin
    refine ⟨s.buckets, rfl, rfl, ?_⟩
    intro b
    simp
  | cons e es ih =>
    intro s hdone hin
    have hidx : Util.ExtractNum e s.beginBits s.logNumBuckets < s.buckets.length :=
      hin e (List.mem_cons_self e es)
    have hadd : AddToCache s e = .ok { s with buckets := s.buckets.set (Util.ExtractNum e s.beginBits s.logNumBuckets) (s.buckets.getD (Util.ExtractNum e s.beginBits s.logNumBuckets) [] ++ [e]) } := by
      unfold AddToCache
      rw [if_neg (by rw [hdone]; simp)]
    obtain ⟨bk, hbk, hbklen, hbkget⟩ := ih { s with buckets := s.buckets.set (Util.ExtractNum e s.beginBits s.logNumBuckets) (s.buckets.getD (Util.ExtractNum e s.beginBits s.logNumBuckets) [] ++ [e]) }
      hdone (by
        intro x hx
        simp only [List.length_set]
        exact hin x (List.mem_cons_of_mem e hx))
    refine ⟨bk, ?_, ?_, ?_⟩
    · show addAll s (e :: es) = _
      unfold addAll
      rw [hadd]
      exact hbk
    · rw [hbklen]
      simp
    · intro b
      have hstep := hbkget b
      dsimp only at hstep
      rcases eq_or_ne (Util.ExtractNum e s.beginBits s.logNumBuckets) b with hb | hb
      · rw [hstep]
        rw [hb]
        rw [UniformSort.getD_set_self _ _ _ _ (by omega)]
        rw [List.filter_cons_of_pos (by rw [← hb]; simp)]
        rw [← hb]
        simp
      · rw [hstep, UniformSort.getD_set_ne _ _ _ _ _ hb,
          List.filter_cons_of_neg (by simp [hb])]

end SortManager

namespace SortManager

/-- The state of a manager that has sorted its first `j` buckets: the
window covers bucket `j - 1` (or is empty when `j = 0`), and the sort
buffer holds the uniform-sort image of bucket `j - 1`. -/
structure WindowInv (G : List (List Entry)) (eL bB lnb msz : Nat) (j : Nat)
    (s : SortManagerState) : Prop where
  hbuck : s.buckets = G
  hesz : s.entrySize = eL
  hbb : s.beginBits = bB
  hlnb : s.logNumBuckets = lnb
  hmsz : s.memorySize = msz
  hnext : s.nextBucketToSort = j
  hjle : j ≤ G.length
  hfpe : s.finalPositionEnd = cumLen G j * eL
  hwindow : (j = 0 ∧ s.finalPositionStart = 0) ∨
    (1 ≤ j ∧ s.finalPositionStart = cumLen G (j - 1) * eL ∧
      s.memory = (UniformSort.SortToMemory (G.getD (j - 1) []) eL (bB + lnb)).1)

theorem SortBucket_window (G : List (List Entry)) (eL bB lnb msz j : Nat)
    (s : SortManagerState) (hw : WindowInv G eL bB lnb msz j s)
    (hj : j < G.length) (hfit : (G.getD j []).length ≤ msz / eL) :
    ∃ s', SortBucket s = .ok s' ∧ WindowInv G eL bB lnb msz (j + 1) s' := by
  have hsb : SortBucket s = .ok { s with
      done := true
      memoryAllocated := true
      memory := (UniformSort.SortToMemory (s.buckets.getD s.nextBucketToSort [])
        s.entrySize (s.beginBits + s.logNumBuckets)).1
      finalPositionStart := s.finalPositionEnd
      finalPositionEnd := s.finalPositionEnd +
        (s.buckets.getD s.nextBucketToSort []).length * s.entrySize
      nextBucketToSort := s.nextBucketToSort + 1 } := by
    unfold SortBucket
    rw [if_neg (by rw [hw.hbuck, hw.hnext]; omega),
      if_neg (by rw [hw.hbuck, hw.hnext, hw.hmsz, hw.hesz]; omega)]
  refine ⟨_, hsb, ?_⟩
  constructor <;> dsimp only
  · exact hw.hbuck
  · exact hw.hesz
  · exact hw.hbb
  · exact hw.hlnb
  · exact hw.hmsz
  · rw [hw.hnext]
  · omega
  · rw [hw.hfpe, hw.hbuck, hw.hnext, hw.hesz, cumLen_succ G j hj]
    ring
  · right
    refine ⟨by omega, ?_, ?_⟩
    · rw [hw.hfpe]
      simp
    · rw [hw.hbuck, hw.hnext, hw.hesz, hw.hbb, hw.hlnb]
      simp

theorem sortUntil_window (G : List (List Entry)) (eL bB lnb msz : Nat)
    (heL : 0 < eL) (hfit : ∀ b ∈ G, b.length ≤ msz / eL) :
    ∀ (fuel j : Nat) (s : SortManagerState) (i : Nat),
      fuel = G.length - j →
      WindowInv G eL bB lnb msz j s →
      (j = 0 ∨ cumLen G (j - 1) ≤ i) →
      i < cumLen G G.length →
      ∃ j' s', sortUntil (i * eL) fuel s = .ok s' ∧
        WindowInv G eL bB lnb msz j' s' ∧ 1 ≤ j' ∧
        cumLen G (j' - 1) ≤ i ∧ i < cumLen G j' := by
  intro fuel
  induction fuel with
  | zero =>
    intro j s i hfuel hw hlow hi
    have hjge : G.length ≤ j := by omega
    have hjeq : j = G.length := by
      have := hw.hjle
      omega
    have hguard : ¬ (s.finalPositionEnd ≤ i * eL) := by
      rw [hw.hfpe, hjeq]
      intro hc
      have := Nat.le_of_mul_le_mul_right hc heL
      omega
    have hj1 : 1 ≤ j := by
      by_contra hc
      have hj0 : j = 0 := by omega
      rw [hj0] at hjeq
      rw [← hjeq] at hi
      rw [cumLen_zero] at hi
      omega
    refine ⟨j, s, ?_, hw, hj1, ?_, ?_⟩
    · simp only [sortUntil]
      rw [if_neg hguard]
    · rcases hlow with h0 | h
      · omega
      · exact h
    · rw [hjeq]
      exact hi
  | succ fuel ih =>
    intro j s i hfuel hw hlow hi
    by_cases hguard : s.finalPositionEnd ≤ i * eL
    · have hcum : cumLen G j ≤ i := by
        rw [hw.hfpe] at hguard
        exact Nat.le_of_mul_le_mul_right hguard heL
      have hj : j < G.length := by
        by_contra hc
        rw [cumLen_of_le G j (by omega)] at hcum
        omega
      obtain ⟨s2, hs2, hw2⟩ := SortBucket_window G eL bB lnb msz j s hw hj
        (hfit _ (by
          rw [List.getD_eq_getElem G [] hj]
          exact List.getElem_mem hj))
      obtain ⟨j', s', hrun, hw', hj1', hlow', hhi'⟩ := ih (j + 1) s2 i (by omega) hw2
        (Or.inr (by simpa using hcum)) hi
      refine ⟨j', s', ?_, hw', hj1', hlow', hhi'⟩
      simp only [sortUntil]
      rw [if_pos hguard, hs2]
      exact hrun
    · have hcum : i < cumLen G j := by
        rw [hw.hfpe] at hguard
        by_contra hc
        exact hguard (Nat.mul_le_mul_right eL (by omega))
      have hj1 : 1 ≤ j := by
        by_contra hc
        have hj0 : j = 0 := by omega
        rw [hj0, cumLen_zero] at hcum
        omega
      refine ⟨j, s, ?_, hw, hj1, ?_, hcum⟩
      · simp only [sortUntil]
        rw [if_neg hguard]
      · rcases hlow with h0 | h
        · omega
        · exact h

end SortManager

namespace SortManager

theorem getD_take_of_lt {α : Type} (l : List α) (n m : Nat) (d : α) (h : m < n) :
    (l.take n).getD m d = l.getD m d := by
  simp [List.getD, List.getElem?_take_of_lt h]

theorem flattenSorted_getD (eL bB' : Nat) :
    ∀ (G : List (List Entry)),
      (∀ b ∈ G, (UniformSort.sortOutput b eL bB').length = b.length) →
      ∀ j i, j < G.length → cumLen G j ≤ i → i < cumLen G (j + 1) →
        (flattenSorted G eL bB').getD i [] =
          (UniformSort.sortOutput (G.getD j []) eL bB').getD (i - cumLen G j) [] := by
  intro G
  induction G with
  | nil =>
    intro _ j i hj _ _
    simp at hj
  | cons b G ih =>
    intro hSlen j i hj hlo hhi
    have hfl : flattenSorted (b :: G) eL bB' =
        UniformSort.sortOutput b eL bB' ++ flattenSorted G eL bB' := by
      unfold flattenSorted
      simp
    have hblen : (UniformSort.sortOutput b eL bB').length = b.length :=
      hSlen b (List.mem_cons_self b G)
    cases j with
    | zero =>
      rw [cumLen_zero] at hlo
      have h1 : cumLen (b :: G) 1 = b.length := by
        rw [cumLen_cons b G 0, cumLen_zero]
        omega
      rw [h1] at hhi
      rw [hfl, List.getD_append _ _ _ _ (by omega)]
      simp [cumLen_zero]
    | succ j =>
      rw [cumLen_cons b G j] at hlo
      rw [cumLen_cons b G (j + 1)] at hhi
      have hige : (UniformSort.sortOutput b eL bB').length ≤ i := by omega
      rw [hfl, List.getD_append_right _ _ _ _ hige, hblen]
      have hj' : j < G.length := by simpa using hj
      have := ih (fun x hx => hSlen x (List.mem_cons_of_mem b hx)) j (i - b.length)
        hj' (by omega) (by omega)
      rw [this]
      have hidx : i - b.length - cumLen G j = i - cumLen (b :: G) (j + 1) := by
        rw [cumLen_cons b G j]
        omega
      rw [hidx]
      rfl

theorem flattenSorted_length (G : List (List Entry)) (eL bB' : Nat)
    (hSlen : ∀ b ∈ G, (UniformSort.sortOutput b eL bB').length = b.length) :
    (flattenSorted G eL bB').length = cumLen G G.length := by
  unfold flattenSorted cumLen
  rw [List.take_length, List.length_flatten, List.map_map]
  congr 1
  apply List.map_congr_left
  intro b hb
  exact hSlen b hb

theorem ReadEntry_window (G : List (List Entry)) (eL bB lnb msz : Nat)
    (heL : 0 < eL) (hfit : ∀ b ∈ G, b.length ≤ msz / eL)
    (hSlen : ∀ b ∈ G, (UniformSort.sortOutput b eL (bB + lnb)).length = b.length) :
    ∀ (j : Nat) (s : SortManagerState) (i : Nat),
      WindowInv G eL bB lnb msz j s →
      (j = 0 ∨ cumLen G (j - 1) ≤ i) →
      i < cumLen G G.length →
      ∃ j' s', ReadEntry s (i * eL) =
          .ok ((flattenSorted G eL (bB + lnb)).getD i [], s') ∧
        WindowInv G eL bB lnb msz j' s' ∧ 1 ≤ j' ∧ cumLen G (j' - 1) ≤ i := by
  intro j s i hw hlow hi
  have hnotback : ¬ (i * eL < s.finalPositionStart) := by
    rcases hw.hwindow with ⟨h0, hfps⟩ | ⟨hj1, hfps, _⟩
    · rw [hfps]
      omega
    · rw [hfps]
      rcases hlow with h0 | h
      · omega
      · exact not_lt.mpr (Nat.mul_le_mul_right eL h)
  have hfuel : s.buckets.length - s.nextBucketToSort = G.length - j := by
    rw [hw.hbuck, hw.hnext]
  obtain ⟨j', s', hrun, hw', hj1', hlow', hhi'⟩ := sortUntil_window G eL bB lnb msz
    heL hfit (G.length - j) j s i rfl hw hlow hi
  obtain ⟨hj1w, hfps', hmem'⟩ : 1 ≤ j' ∧
      s'.finalPositionStart = cumLen G (j' - 1) * eL ∧
      s'.memory = (UniformSort.SortToMemory (G.getD (j' - 1) []) eL (bB + lnb)).1 := by
    rcases hw'.hwindow with ⟨h0, _⟩ | ⟨a, b, c⟩
    · omega
    · exact ⟨a, b, c⟩
  have hcheck1 : i * eL < s'.finalPositionEnd := by
    rw [hw'.hfpe]
    have ha : (i + 1) * eL ≤ cumLen G j' * eL := Nat.mul_le_mul_right eL (by omega)
    have hb : (i + 1) * eL = i * eL + eL := by rw [Nat.succ_mul]
    omega
  have hcheck2 : s'.finalPositionStart ≤ i * eL := by
    rw [hfps']
    exact Nat.mul_le_mul_right eL hlow'
  have hjlt : j' - 1 < G.length := by
    have := hw'.hjle
    omega
  have hcums : cumLen G j' = cumLen G (j' - 1) + (G.getD (j' - 1) []).length := by
    have h1 : j' - 1 + 1 = j' := by omega
    rw [← h1, cumLen_succ G (j' - 1) hjlt]
    rw [h1]
  have hidxlt : i - cumLen G (j' - 1) < (G.getD (j' - 1) []).length := by omega
  have hval : s'.memory.getD ((i * eL - s'.finalPositionStart) / s'.entrySize) [] =
      (flattenSorted G eL (bB + lnb)).getD i [] := by
    rw [hw'.hesz, hfps', ← Nat.sub_mul, Nat.mul_div_cancel _ heL, hmem']
    have hso : (UniformSort.sortOutput (G.getD (j' - 1) []) eL (bB + lnb)).getD
        (i - cumLen G (j' - 1)) [] =
        (UniformSort.SortToMemory (G.getD (j' - 1) []) eL (bB + lnb)).1.getD
          (i - cumLen G (j' - 1)) [] := by
      unfold UniformSort.sortOutput
      exact getD_take_of_lt _ _ _ _ hidxlt
    have hflat := flattenSorted_getD eL (bB + lnb) G hSlen (j' - 1) i hjlt hlow'
      (by rw [Nat.sub_add_cancel hj1w]; omega)
    rw [hflat, hso]
  refine ⟨j', s', ?_, hw', hj1', hlow'⟩
  unfold ReadEntry
  rw [if_neg hnotback, hfuel, hrun]
  simp only
  rw [if_pos hcheck1, if_pos hcheck2, hval]

theorem readAll_window (G : List (List Entry)) (eL bB lnb msz : Nat)
    (heL : 0 < eL) (hfit : ∀ b ∈ G, b.length ≤ msz / eL)
    (hSlen : ∀ b ∈ G, (UniformSort.sortOutput b eL (bB + lnb)).length = b.length) :
    ∀ (n i j : Nat) (s : SortManagerState),
      WindowInv G eL bB lnb msz j s →
      (j = 0 ∨ cumLen G (j - 1) ≤ i) →
      i + n = cumLen G G.length →
      readAll s i n = .ok ((flattenSorted G eL (bB + lnb)).drop i) := by
  intro n
  induction n with
  | zero =>
    intro i j s _hw _hlow htot
    have : (flattenSorted G eL (bB + lnb)).drop i = [] := by
      apply List.drop_eq_nil_of_le
      rw [flattenSorted_length G eL (bB + lnb) hSlen]
      omega
    rw [this]
    rfl
  | succ n ih =>
    intro i j s hw hlow htot
    have hi : i < cumLen G G.length := by omega
    obtain ⟨j', s', hread, hw', hj1', hlow'⟩ := ReadEntry_window G eL bB lnb msz
      heL hfit hSlen j s i hw hlow hi
    have hrest := ih (i + 1) j' s' hw' (Or.inr (by omega)) (by omega)
    have hesz : s.entrySize = eL := hw.hesz
    show (match ReadEntry s (i * s.entrySize) with
      | Except.error e => Except.error e
      | Except.ok (e, s') =>
        match readAll s' (i + 1) n with
        | Except.error err => Except.error err
        | Except.ok rest => Except.ok (e :: rest)) = _
    rw [hesz, hread]
    simp only
    rw [hrest]
    simp only
    have hlen : i < (flattenSorted G eL (bB + lnb)).length := by
      rw [flattenSorted_length G eL (bB + lnb) hSlen]
      omega
    have hdropc : (flattenSorted G eL (bB + lnb)).drop i =
        (flattenSorted G eL (bB + lnb)).getD i [] ::
          (flattenSorted G eL (bB + lnb)).drop (i + 1) := by
      rw [List.drop_eq_getElem_cons hlen, List.getD_eq_getElem _ [] hlen]
    rw [hdropc]

end SortManager

namespace SortManager

/-- The output ordering of the bucketed sort: by the `logNumBuckets`
bucket-selection bits at `beginBits` first, then by the bit suffix after
them. -/
def bucketThenSuffixLe (eL bB lnb : Nat) (a b : Entry) : Prop :=
  Util.ExtractNum a bB lnb < Util.ExtractNum b bB lnb ∨
    (Util.ExtractNum a bB lnb = Util.ExtractNum b bB lnb ∧
      Util.suffixVal eL (bB + lnb) a ≤ Util.suffixVal eL (bB + lnb) b)

theorem insert_bucket_perm (f : Entry → Nat) (e : Entry) (g : Nat → List Entry) :
    ∀ n, f e < n →
      List.Perm (((List.range n).map
          (fun b => if f e == b then e :: g b else g b)).flatten)
        (e :: ((List.range n).map g).flatten) := by
  intro n
  induction n with
  | zero =>
    intro h
    omega
  | succ n ih =>
    intro h
    rw [List.range_succ, List.map_append, List.map_append, List.flatten_append,
      List.flatten_append]
    simp only [List.map_cons, List.map_nil, List.flatten_cons, List.flatten_nil,
      List.append_nil]
    rcases eq_or_ne (f e) n with hfe | hfe
    · have hmap : (List.range n).map (fun b => if f e == b then e :: g b else g b) =
          (List.range n).map g := by
        apply List.map_congr_left
        intro b hb
        have hbn : b < n := List.mem_range.mp hb
        rw [if_neg (by simp; omega)]
      rw [hmap, if_pos (by simp [hfe])]
      exact List.perm_middle
    · rw [if_neg (by simp [hfe])]
      have hfen : f e < n := by omega
      exact (ih hfen).append_right (g n)

theorem filter_range_perm (f : Entry → Nat) :
    ∀ (es : List Entry) (n : Nat), (∀ e ∈ es, f e < n) →
      List.Perm (((List.range n).map (fun b => es.filter (fun e => f e == b))).flatten)
        es := by
  intro es
  induction es with
  | nil =>
    intro n _
    have : (List.range n).map (fun b => List.filter (fun e => f e == b) []) =
        (List.range n).map (fun _ => []) := by
      apply List.map_congr_left
      intro b _
      rfl
    rw [this]
    have : ((List.range n).map (fun _ => ([] : List Entry))).flatten = [] := by
      rw [List.flatten_eq_nil_iff]
      intro l hl
      obtain ⟨b, _, rfl⟩ := List.mem_map.mp hl
      rfl
    rw [this]
  | cons e es ih =>
    intro n hin
    have hfe : f e < n := hin e (List.mem_cons_self e es)
    have hmap : (List.range n).map (fun b => (e :: es).filter (fun x => f x == b)) =
        (List.range n).map (fun b => if f e == b then
          e :: es.filter (fun x => f x == b) else es.filter (fun x => f x == b)) := by
      apply List.map_congr_left
      intro b _
      by_cases hb : (f e == b) = true
      · simp [List.filter_cons, hb]
      · simp [List.filter_cons, hb]
    rw [hmap]
    have h1 := insert_bucket_perm f e (fun b => es.filter (fun x => f x == b)) n hfe
    refine h1.trans ?_
    exact (ih n (fun x hx => hin x (List.mem_cons_of_mem e hx))).cons e

theorem flattenSorted_perm_flatten (eL bB' : Nat) :
    ∀ (G : List (List Entry)),
      (∀ b ∈ G, List.Perm (UniformSort.sortOutput b eL bB') b) →
      List.Perm (flattenSorted G eL bB') G.flatten := by
  intro G
  induction G with
  | nil =>
    intro _
    exact List.Perm.refl _
  | cons b G ih =>
    intro h
    unfold flattenSorted
    simp only [List.map_cons, List.flatten_cons]
    exact (h b (List.mem_cons_self b G)).append
      (ih (fun x hx => h x (List.mem_cons_of_mem b hx)))

theorem cumLen_eq_flatten_length (G : List (List Entry)) :
    cumLen G G.length = G.flatten.length := by
  unfold cumLen
  rw [List.take_length, List.length_flatten]

end SortManager

namespace SortManager

theorem flattenSorted_bucket_pairwise (es : List Entry) (eL bB lnb numB : Nat)
    (hperm : ∀ bu ∈ bucketsOf es bB lnb numB,
      List.Perm (UniformSort.sortOutput bu eL (bB + lnb)) bu)
    (hpair : ∀ bu ∈ bucketsOf es bB lnb numB,
      (UniformSort.sortOutput bu eL (bB + lnb)).Pairwise
        (fun a b => Util.suffixVal eL (bB + lnb) a ≤ Util.suffixVal eL (bB + lnb) b)) :
    (flattenSorted (bucketsOf es bB lnb numB) eL (bB + lnb)).Pairwise
      (bucketThenSuffixLe eL bB lnb) := by
  have hbu : ∀ b, b < numB →
      es.filter (fun e => Util.ExtractNum e bB lnb == b) ∈ bucketsOf es bB lnb numB := by
    intro b hb
    exact List.mem_map_of_mem _ (List.mem_range.mpr hb)
  have hval : ∀ b, b < numB → ∀ x, x ∈ UniformSort.sortOutput
      (es.filter (fun e => Util.ExtractNum e bB lnb == b)) eL (bB + lnb) →
      Util.ExtractNum x bB lnb = b := by
    intro b hb x hx
    have hxm : x ∈ es.filter (fun e => Util.ExtractNum e bB lnb == b) :=
      ((hperm _ (hbu b hb)).mem_iff).mp hx
    simpa using List.of_mem_filter hxm
  unfold flattenSorted bucketsOf
  rw [List.pairwise_flatten]
  constructor
  · intro l hl
    obtain ⟨bu, hbumem, rfl⟩ := List.mem_map.mp hl
    obtain ⟨b, hbr, rfl⟩ := List.mem_map.mp hbumem
    have hb : b < numB := List.mem_range.mp hbr
    refine (hpair _ (hbu b hb)).imp_of_mem ?_
    intro x y hx hy hxy
    right
    exact ⟨by rw [hval b hb x hx, hval b hb y hy], hxy⟩
  · rw [List.pairwise_map, List.pairwise_map]
    refine (List.pairwise_lt_range numB).imp_of_mem ?_
    intro b1 b2 hb1 hb2 h12 x hx y hy
    left
    rw [hval b1 (List.mem_range.mp hb1) x hx, hval b2 (List.mem_range.mp hb2) y hy]
    exact h12

end SortManager

/-- C2 (counterexample): with one bucket (log_num_buckets = 0), entry size
1 and begin_bits 0, adding `[[255], [255]]` satisfies the claim's
preconditions (the bucket of two entries fits in 10 bytes of sort memory,
and the entries are nonzero after begin_bits), yet the sequential read
stream is `[[255], [0]]` — the bucket's uniform sort writes the second
entry one slot past the region, compaction loses it, and a zero slot is
read back — which is not the added entries in any order. -/
theorem C2_counterexample :
    ((SortManager.addAll (SortManager.mkSortManager 10 1 0 1 0 4) [[255], [255]]).bind
      (fun s0 => SortManager.readAll s0 0 2)) = .ok [[255], [0]] ∧
    ¬ List.Perm [[255], [0]] ([[255], [255]] : List Entry) :=
  ⟨rfl, by decide⟩

/-- C2 (amended): add fixed-width entries to a fresh SortManager with
`numB = 2 ^ log_num_buckets` buckets; if every bucket fits in the sort
memory, every entry is nonzero after `begin_bits`, and additionally every
bucket's uniform sort places all entries strictly inside its region
(`sortOk`, which the stated preconditions do not guarantee — see the
counterexample), then reading positions `0, entry_size, 2*entry_size, ...`
sequentially through `ReadEntry` yields exactly the added entries, sorted
ascending by the `log_num_buckets` bucket-selection bits at `begin_bits`
and then by the following bit suffix. -/
theorem C2_sortManager_reads_sorted (es : List Entry)
    (eL bB lnb msz numB pbs : Nat)
    (heL : 0 < eL) (hnumB : numB = 2 ^ lnb)
    (hlen : ∀ e ∈ es, e.length = eL)
    (hnz : ∀ e ∈ es, Util.suffixVal eL bB e ≠ 0)
    (hfit : ∀ bu ∈ SortManager.bucketsOf es bB lnb numB, bu.length ≤ msz / eL)
    (hok : ∀ bu ∈ SortManager.bucketsOf es bB lnb numB,
      UniformSort.sortOk bu eL (bB + lnb) = true) :
    ((SortManager.addAll (SortManager.mkSortManager msz numB lnb eL bB pbs) es).bind
        (fun s0 => SortManager.readAll s0 0 es.length)) =
      .ok (SortManager.flattenSorted (SortManager.bucketsOf es bB lnb numB)
        eL (bB + lnb)) ∧
    List.Perm (SortManager.flattenSorted (SortManager.bucketsOf es bB lnb numB)
      eL (bB + lnb)) es ∧
    (SortManager.flattenSorted (SortManager.bucketsOf es bB lnb numB)
      eL (bB + lnb)).Pairwise (SortManager.bucketThenSuffixLe eL bB lnb) := by
  -- the per-bucket correctness facts from the uniform-sort theorem
  have hbucketmem : ∀ bu ∈ SortManager.bucketsOf es bB lnb numB, ∀ x ∈ bu, x ∈ es := by
    intro bu hbu x hx
    obtain ⟨b, _, rfl⟩ := List.mem_map.mp hbu
    exact List.mem_of_mem_filter hx
  have hcore : ∀ bu ∈ SortManager.bucketsOf es bB lnb numB,
      List.Perm (UniformSort.sortOutput bu eL (bB + lnb)) bu ∧
      (UniformSort.sortOutput bu eL (bB + lnb)).Pairwise
        (fun a b => Util.suffixVal eL (bB + lnb) a ≤ Util.suffixVal eL (bB + lnb) b) := by
    intro bu hbu
    have h1 : ∀ x ∈ bu, x.length = eL := fun x hx => hlen x (hbucketmem bu hbu x hx)
    have h2 : ∀ x ∈ bu, UniformSort.slotFull x = true := by
      intro x hx
      rw [UniformSort.slotFull_iff]
      exact UniformSort.not_isPositionEmpty_of_suffix_ne x eL bB
        (h1 x hx) (hnz x (hbucketmem bu hbu x hx))
    obtain ⟨hp, hs, _⟩ := UniformSort.SortToMemory_spec bu eL (bB + lnb) h1 h2
      (hok bu hbu)
    exact ⟨hp, hs⟩
  have hperm : ∀ bu ∈ SortManager.bucketsOf es bB lnb numB,
      List.Perm (UniformSort.sortOutput bu eL (bB + lnb)) bu :=
    fun bu hbu => (hcore bu hbu).1
  have hSlen : ∀ bu ∈ SortManager.bucketsOf es bB lnb numB,
      (UniformSort.sortOutput bu eL (bB + lnb)).length = bu.length :=
    fun bu hbu => (hperm bu hbu).length_eq
  have hflatperm : List.Perm
      (SortManager.bucketsOf es bB lnb numB).flatten es := by
    apply SortManager.filter_range_perm (fun e => Util.ExtractNum e bB lnb) es numB
    intro e _
    rw [hnumB]
    exact Util.ExtractNum_lt e bB lnb
  have hsortedperm : List.Perm (SortManager.flattenSorted
      (SortManager.bucketsOf es bB lnb numB) eL (bB + lnb)) es :=
    (SortManager.flattenSorted_perm_flatten eL (bB + lnb) _ hperm).trans hflatperm
  -- the buckets after the adds
  obtain ⟨bk, hbk, hbklen, hbkget⟩ := SortManager.addAll_spec es
    (SortManager.mkSortManager msz numB lnb eL bB pbs) rfl
    (by
      intro e _
      show Util.ExtractNum e bB lnb < (List.replicate numB []).length
      rw [List.length_replicate, hnumB]
      exact Util.ExtractNum_lt e bB lnb)
  dsimp only [SortManager.mkSortManager] at hbklen hbkget
  have hG : bk = SortManager.bucketsOf es bB lnb numB := by
    apply List.ext_getElem
    · rw [hbklen]
      show (List.replicate numB ([] : List Entry)).length = _
      rw [List.length_replicate]
      unfold SortManager.bucketsOf
      rw [List.length_map, List.length_range]
    · intro b h1 h2
      have hbnum : b < numB := by
        unfold SortManager.bucketsOf at h2
        rw [List.length_map, List.length_range] at h2
        exact h2
      have hgd := hbkget b
      rw [List.getD_eq_getElem bk [] h1] at hgd
      have hrep : (List.replicate numB ([] : List Entry)).getD b [] = [] := by
        rcases Nat.lt_or_ge b numB with hb | hb
        · rw [List.getD_eq_getElem _ [] (by simpa using hb)]
          simp
        · rw [List.getD_eq_default _ [] (by simpa using hb)]
      have hbget : (SortManager.bucketsOf es bB lnb numB)[b] =
          es.filter (fun e => Util.ExtractNum e bB lnb == b) := by
        unfold SortManager.bucketsOf
        rw [List.getElem_map, List.getElem_range]
      rw [hbget, hgd]
      show (List.replicate numB ([] : List Entry)).getD b [] ++ _ = _
      rw [hrep]
      simp
  -- the initial window invariant
  have hwin : SortManager.WindowInv (SortManager.bucketsOf es bB lnb numB)
      eL bB lnb msz 0
      { SortManager.mkSortManager msz numB lnb eL bB pbs with buckets := bk } := by
    constructor
    · exact hG
    · rfl
    · rfl
    · rfl
    · rfl
    · rfl
    · exact Nat.zero_le _
    · simp [SortManager.mkSortManager, SortManager.cumLen_zero]
    · exact Or.inl ⟨rfl, rfl⟩
  have htot : 0 + es.length = SortManager.cumLen
      (SortManager.bucketsOf es bB lnb numB)
      (SortManager.bucketsOf es bB lnb numB).length := by
    rw [SortManager.cumLen_eq_flatten_length, hflatperm.length_eq]
    omega
  have hread := SortManager.readAll_window (SortManager.bucketsOf es bB lnb numB)
    eL bB lnb msz heL hfit hSlen es.length 0 0
    { SortManager.mkSortManager msz numB lnb eL bB pbs with buckets := bk }
    hwin (Or.inl rfl) htot
  refine ⟨?_, hsortedperm, ?_⟩
  · rw [hbk]
    show SortManager.readAll _ 0 es.length = _
    rw [hread]
    simp
  · exact SortManager.flattenSorted_bucket_pairwise es eL bB lnb numB hperm
      (fun bu hbu => (hcore bu hbu).2)

theorem C2_sortManager_reads_sorted_witness :
    ((SortManager.addAll (SortManager.mkSortManager 10 2 1 1 0 4) [[128], [1]]).bind
        (fun s0 => SortManager.readAll s0 0 2)) =
      .ok (SortManager.flattenSorted (SortManager.bucketsOf [[128], [1]] 0 1 2) 1 1) ∧
    List.Perm (SortManager.flattenSorted (SortManager.bucketsOf [[128], [1]] 0 1 2) 1 1)
      [[128], [1]] ∧
    (SortManager.flattenSorted (SortManager.bucketsOf [[128], [1]] 0 1 2) 1 1).Pairwise
      (SortManager.bucketThenSuffixLe 1 0 1) :=
  C2_sortManager_reads_sorted [[128], [1]] 1 0 1 10 2 4 (by decide) (by decide)
    (by decide) (by decide) (by decide) (by decide)

namespace Subspace

/-- The 32-byte challenge built by the FFI wrappers (subspace.hpp lines
28-29, 49-50, 67-68): `challenge_index` is `memcpy`d into the first four
bytes (little-endian, as the spec states in section 6), the remaining 28
bytes are zero. -/
def challengeBytes (challengeIndex : Nat) : List Nat :=
  [challengeIndex % 256, challengeIndex / 256 % 256,
    challengeIndex / 65536 % 256, challengeIndex / 16777216 % 256] ++
    List.replicate 28 0

/-- Modelled from the spec: the quality selector computed at subspace.hpp
lines 75-76, `Bits(challenge, 32, 256).Slice(256 - 5).GetValue() << 1`.
The `Bits` class (bits.hpp, component C1 of the spec) is not under src/;
per spec section 4.1 it is an MSB-first big-endian bit buffer, so the
bottom five bits of the 256-bit stream are the low five bits of byte 31. -/
def qualityIndex (challenge : List Nat) : Nat :=
  challenge.getD 31 0 % 32 * 2

/-- `subspace_chiapos_is_proof_valid` (subspace.hpp lines 60-88) given the
outcome of `Verifier::ValidateProof` (missing from src/; modelled from the
spec as an `Except` producing the quality byte string, empty on reject,
with any internal exception as `error`).  Returns the flag and the bytes
written to the output buffer. -/
def subspace_chiapos_is_proof_valid (validate : Except Unit (List Nat))
    (challengeIndex : Nat) : Bool × Option (List Nat) :=
  match validate with
  | .error _ => (false, none)
  | .ok q =>
    if q.length ≠ 0 then
      if qualityIndex (challengeBytes challengeIndex) = 0 then (true, some q)
      else (false, none)
    else (false, none)

/-- `subspace_chiapos_find_quality` (subspace.hpp lines 27-43) given the
outcome of `Prover::GetQualitiesForChallenge` (missing from src/;
modelled from the spec as an `Except` producing the list of qualities,
with any internal exception — e.g. an unseeded prover — as `error`). -/
def subspace_chiapos_find_quality (qualities : Except Unit (List (List Nat))) :
    Bool × Option (List Nat) :=
  match qualities with
  | .error _ => (false, none)
  | .ok [] => (false, none)
  | .ok (q :: _) => (true, some q)

/-- `subspace_chiapos_create_proof` (subspace.hpp lines 48-57) given the
outcome of `Prover::GetFullProof` (missing from src/; modelled from the
spec as an `Except` producing the proof bytes). -/
def subspace_chiapos_create_proof (proof : Except Unit (List Nat)) :
    Bool × Option (List Nat) :=
  match proof with
  | .error _ => (false, none)
  | .ok p => (true, some p)

theorem qualityIndex_challengeBytes (challengeIndex : Nat) :
    qualityIndex (challengeBytes challengeIndex) = 0 := by
  unfold qualityIndex challengeBytes
  rw [List.getD_append_right _ _ _ _ (by simp)]
  simp

end Subspace

/-- C3: `subspace_chiapos_is_proof_valid` returns true exactly when
`ValidateProof` returned without an exception and with a non-empty
quality and the challenge's bottom-5-bit quality selector is zero — a
condition which in fact always holds for challenges built from a
`challenge_index`, since bytes 4..31 of the padded challenge are zero; in
the true case the quality is written to the output buffer, and in every
other case (empty quality or internal error) it returns false with
nothing written. -/
theorem C3_is_proof_valid (challengeIndex : Nat) (v : Except Unit (List Nat)) :
    Subspace.qualityIndex (Subspace.challengeBytes challengeIndex) = 0 ∧
    ((Subspace.subspace_chiapos_is_proof_valid v challengeIndex).1 = true ↔
      (∃ q, v = .ok q ∧ q.length ≠ 0) ∧
        Subspace.qualityIndex (Subspace.challengeBytes challengeIndex) = 0) ∧
    (∀ q, v = .ok q → q.length ≠ 0 →
      Subspace.subspace_chiapos_is_proof_valid v challengeIndex = (true, some q)) ∧
    ((Subspace.subspace_chiapos_is_proof_valid v challengeIndex).1 = false →
      (Subspace.subspace_chiapos_is_proof_valid v challengeIndex).2 = none) := by
  have hq0 := Subspace.qualityIndex_challengeBytes challengeIndex
  refine ⟨hq0, ?_, ?_, ?_⟩
  · constructor
    · intro h
      cases v with
      | error e => simp [Subspace.subspace_chiapos_is_proof_valid] at h
      | ok q =>
        by_cases hlen : q.length ≠ 0
        · exact ⟨⟨q, rfl, hlen⟩, hq0⟩
        · simp [Subspace.subspace_chiapos_is_proof_valid, hlen] at h
    · rintro ⟨⟨q, rfl, hlen⟩, _⟩
      simp [Subspace.subspace_chiapos_is_proof_valid, hlen, hq0]
  · rintro q rfl hlen
    simp [Subspace.subspace_chiapos_is_proof_valid, hlen, hq0]
  · intro h
    cases v with
    | error e => simp [Subspace.subspace_chiapos_is_proof_valid]
    | ok q =>
      by_cases hlen : q.length ≠ 0
      · simp [Subspace.subspace_chiapos_is_proof_valid, hlen, hq0] at h
      · simp [Subspace.subspace_chiapos_is_proof_valid, hlen]

theorem C3_is_proof_valid_witness :
    Subspace.qualityIndex (Subspace.challengeBytes 5) = 0 ∧
    Subspace.subspace_chiapos_is_proof_valid (.ok (List.replicate 32 7)) 5 =
      (true, some (List.replicate 32 7)) :=
  ⟨(C3_is_proof_valid 5 (.ok (List.replicate 32 7))).1,
    (C3_is_proof_valid 5 (.ok (List.replicate 32 7))).2.2.1
      (List.replicate 32 7) rfl (by decide)⟩

/-- C4: the query wrappers never propagate an internal error: any
exception from the prover surfaces as `false` with nothing written, and
`true` is returned exactly when the prover call succeeded usefully, in
which case the output buffer holds the first quality (32 bytes, given
well-formed qualities) resp. the proof (`k*8` bytes, given a well-formed
proof). -/
theorem C4_ffi_error_swallowing (qualitiesOutcome : Except Unit (List (List Nat)))
    (proofOutcome : Except Unit (List Nat)) (k : Nat) :
    (∀ e, qualitiesOutcome = .error e →
      Subspace.subspace_chiapos_find_quality qualitiesOutcome = (false, none)) ∧
    ((Subspace.subspace_chiapos_find_quality qualitiesOutcome).1 = true ↔
      ∃ q rest, qualitiesOutcome = .ok (q :: rest)) ∧
    (∀ q rest, qualitiesOutcome = .ok (q :: rest) → q.length = 32 →
      (Subspace.subspace_chiapos_find_quality qualitiesOutcome).2 = some q ∧
        q.length = 32) ∧
    (∀ e, proofOutcome = .error e →
      Subspace.subspace_chiapos_create_proof proofOutcome = (false, none)) ∧
    ((Subspace.subspace_chiapos_create_proof proofOutcome).1 = true ↔
      ∃ p, proofOutcome = .ok p) ∧
    (∀ p, proofOutcome = .ok p → p.length = k * 8 →
      (Subspace.subspace_chiapos_create_proof proofOutcome).2 = some p ∧
        p.length = k * 8) := by
  refine ⟨?_, ?_, ?_, ?_, ?_, ?_⟩
  · rintro e rfl
    rfl
  · constructor
    · intro h
      match qualitiesOutcome, h with
      | .ok (q :: rest), _ => exact ⟨q, rest, rfl⟩
    · rintro ⟨q, rest, rfl⟩
      rfl
  · rintro q rest rfl hlen
    exact ⟨rfl, hlen⟩
  · rintro e rfl
    rfl
  · constructor
    · intro h
      match proofOutcome, h with
      | .ok p, _ => exact ⟨p, rfl⟩
    · rintro ⟨p, rfl⟩
      rfl
  · rintro p rfl hlen
    exact ⟨rfl, hlen⟩

theorem C4_ffi_error_swallowing_witness :
    Subspace.subspace_chiapos_find_quality (.error ()) = (false, none) ∧
    (Subspace.subspace_chiapos_create_proof (.ok (List.replicate 16 3))).2 =
      some (List.replicate 16 3) :=
  ⟨(C4_ffi_error_swallowing (.error ()) (.ok (List.replicate 16 3)) 2).1 () rfl,
    ((C4_ffi_error_swallowing (.error ()) (.ok (List.replicate 16 3)) 2).2.2.2.2.2
      (List.replicate 16 3) rfl (by decide)).1⟩

namespace DiskPlotter

/-- The argument checks at the head of `DiskPlotter::CreatePlotDisk`
(plotter_disk.hpp lines 60-88), up to the computation of `memory_size`.
`kMin`/`kMax` stand for `kMinPlotSize`/`kMaxPlotSize` and `subMbytes` for
the computed floor `sub_mbytes` of line 83; modelled from the spec: these
come from the missing pos_constants.hpp and entry_sizes.hpp (the spec
describes the floor only as "derived from entry sizes and bucket
counts"), so they are taken as parameters.  On success returns the
megabytes which will be available, `buf_megabytes - sub_mbytes`; every
error is raised before any plot byte is produced (the output vector of
line 139 is only created afterwards). -/
def CreatePlotDiskChecks (kMin kMax k bufMegabytesInput subMbytes : Nat) :
    Except ChiaError Nat :=
  if k < kMin ∨ kMax < k then .error .InvalidValue
  else
    let bufMegabytes := if bufMegabytesInput ≠ 0 then bufMegabytesInput else 4608
    if bufMegabytes < 10 then .error .InsufficientMemory
    else if bufMegabytes < subMbytes then .error .InsufficientMemory
    else .ok (bufMegabytes - subMbytes)

/-- The `num_buckets` resolution of `CreatePlotDisk` (plotter_disk.hpp
lines 95-115): a non-zero input is rounded up to a power of two, the
computed default is used otherwise, and the result is range-checked
against `kMinBuckets`/`kMaxBuckets` (parameters; the constants are in the
missing pos_constants.hpp), raising `InvalidValue` for an out-of-range
explicit input. -/
def resolveNumBuckets (numBucketsInput computedDefault kMinBuckets kMaxBuckets : Nat) :
    Except ChiaError Nat :=
  let numBuckets := if numBucketsInput ≠ 0 then Util.RoundPow2 numBucketsInput
    else computedDefault
  if numBuckets < kMinBuckets then
    if numBucketsInput ≠ 0 then .error .InvalidValue else .ok kMinBuckets
  else if kMaxBuckets < numBuckets then
    if numBucketsInput ≠ 0 then .error .InvalidValue else .error .InsufficientMemory
  else .ok numBuckets

/-- The magic string of the plot header (plotter_disk.hpp line 270), as
utf-8 bytes (all characters are ASCII). -/
def headerMagic : List Nat :=
  "Proof of Space Plot".data.map Char.toNat

/-- Modelled from the spec: `kIdLen` (missing pos_constants.hpp); the id
is 32 bytes (spec section 6). -/
def kIdLen : Nat := 32

/-- `DiskPlotter::WriteHeader` (plotter_disk.hpp lines 259-297) in the
byte-vector model: append the magic string, the 32-byte id, the byte `k`,
the two-byte big-endian length of the format description, the format
description itself (a parameter; `kFormatDescription` is in the missing
pos_constants.hpp), and the zeroed 10 x 8-byte table-pointer block.
Returns the new vector and `write_pos`, the number of bytes written. -/
def WriteHeader (plot : List Nat) (k : Nat) (id : List Nat) (fmtDesc : List Nat) :
    List Nat × Nat :=
  (plot ++ headerMagic ++ id ++ [k % 256] ++ Util.IntToTwoBytes fmtDesc.length ++
      fmtDesc ++ List.replicate (10 * 8) 0,
    headerMagic.length + kIdLen + 1 + 2 + fmtDesc.length + 10 * 8)

end DiskPlotter

/-- C5: with a valid `k`, `CreatePlotDisk` fails with
`InsufficientMemory` whenever the effective buffer size (the input, or
4608 when the input is zero) is below 10 or below the computed floor
`sub_mbytes`; the error is raised by the argument checks before any plot
byte is produced. -/
theorem C5_insufficientMemory (kMin kMax k bufMegabytesInput subMbytes : Nat)
    (hk1 : kMin ≤ k) (hk2 : k ≤ kMax)
    (hbuf : (if bufMegabytesInput ≠ 0 then bufMegabytesInput else 4608) < 10 ∨
      (if bufMegabytesInput ≠ 0 then bufMegabytesInput else 4608) < subMbytes) :
    DiskPlotter.CreatePlotDiskChecks kMin kMax k bufMegabytesInput subMbytes =
      .error ChiaError.InsufficientMemory := by
  unfold DiskPlotter.CreatePlotDiskChecks
  rw [if_neg (by omega)]
  rcases Nat.lt_or_ge (if bufMegabytesInput ≠ 0 then bufMegabytesInput else 4608) 10
    with h10 | h10
  · rw [if_pos h10]
  · rw [if_neg (by omega), if_pos (by omega)]

theorem C5_insufficientMemory_witness :
    DiskPlotter.CreatePlotDiskChecks 17 50 17 9 5 =
      .error ChiaError.InsufficientMemory :=
  C5_insufficientMemory 17 50 17 9 5 (by decide) (by decide) (by decide)

theorem drop_len_append {α : Type} (l1 l2 : List α) (n : Nat) (h : l1.length = n) :
    (l1 ++ l2).drop n = l2 := by
  subst h
  exact List.drop_left l1 l2

theorem take_len_append {α : Type} (l1 l2 : List α) (n : Nat) (h : l1.length = n) :
    (l1 ++ l2).take n = l1 := by
  subst h
  exact List.take_left l1 l2

/-- C6: `WriteHeader` appends, in this order: the 19-byte utf-8 magic
string, the 32-byte id, one byte holding `k`, the 2-byte big-endian
format-description length, the format-description bytes, and the zeroed
10 x 8-byte table-pointer block; it returns the total header size
`19 + 32 + 1 + 2 + len(format description) + 80`.  The offsets below are
relative to the previous end of the plot vector. -/
theorem C6_writeHeader_layout (plot : List Nat) (k : Nat) (id fmtDesc : List Nat)
    (hid : id.length = 32) (hk : k < 256) (hfmt : fmtDesc.length < 65536) :
    (DiskPlotter.WriteHeader plot k id fmtDesc).2 =
      19 + 32 + 1 + 2 + fmtDesc.length + 80 ∧
    (DiskPlotter.WriteHeader plot k id fmtDesc).1.length =
      plot.length + (DiskPlotter.WriteHeader plot k id fmtDesc).2 ∧
    DiskPlotter.headerMagic.length = 19 ∧
    ((DiskPlotter.WriteHeader plot k id fmtDesc).1.drop plot.length).take 19 =
      DiskPlotter.headerMagic ∧
    (((DiskPlotter.WriteHeader plot k id fmtDesc).1.drop (plot.length + 19)).take 32) =
      id ∧
    (((DiskPlotter.WriteHeader plot k id fmtDesc).1.drop (plot.length + 51)).take 1) =
      [k] ∧
    (((DiskPlotter.WriteHeader plot k id fmtDesc).1.drop (plot.length + 52)).take 2) =
      Util.IntToTwoBytes fmtDesc.length ∧
    fmtDesc.length =
      ((DiskPlotter.WriteHeader plot k id fmtDesc).1.getD (plot.length + 52) 0) * 256 +
        ((DiskPlotter.WriteHeader plot k id fmtDesc).1.getD (plot.length + 53) 0) ∧
    (((DiskPlotter.WriteHeader plot k id fmtDesc).1.drop (plot.length + 54)).take
      fmtDesc.length) = fmtDesc ∧
    ((DiskPlotter.WriteHeader plot k id fmtDesc).1.drop
      (plot.length + 54 + fmtDesc.length)) = List.replicate 80 0 := by
  have hmagic : DiskPlotter.headerMagic.length = 19 := by decide
  have hbody : (DiskPlotter.WriteHeader plot k id fmtDesc).1 =
      plot ++ (DiskPlotter.headerMagic ++ (id ++ ([k % 256] ++
        (Util.IntToTwoBytes fmtDesc.length ++ (fmtDesc ++ List.replicate (10 * 8) 0))))) := by
    unfold DiskPlotter.WriteHeader
    simp [List.append_assoc]
  have htwo : (Util.IntToTwoBytes fmtDesc.length).length = 2 := rfl
  have hdrop0 : (DiskPlotter.WriteHeader plot k id fmtDesc).1.drop plot.length =
      DiskPlotter.headerMagic ++ (id ++ ([k % 256] ++
        (Util.IntToTwoBytes fmtDesc.length ++ (fmtDesc ++ List.replicate (10 * 8) 0)))) := by
    rw [hbody]
    exact drop_len_append _ _ _ rfl
  have hdropN : ∀ n : Nat, (DiskPlotter.WriteHeader plot k id fmtDesc).1.drop
      (plot.length + n) = (DiskPlotter.headerMagic ++ (id ++ ([k % 256] ++
        (Util.IntToTwoBytes fmtDesc.length ++ (fmtDesc ++
          List.replicate (10 * 8) 0))))).drop n := by
    intro n
    rw [hbody]
    have : plot.length + n = plot.length + n := rfl
    exact List.drop_append n
  have hdrop19 : (DiskPlotter.WriteHeader plot k id fmtDesc).1.drop (plot.length + 19) =
      id ++ ([k % 256] ++ (Util.IntToTwoBytes fmtDesc.length ++
        (fmtDesc ++ List.replicate (10 * 8) 0))) := by
    rw [hdropN 19, ← hmagic]
    exact List.drop_left _ _
  have hdrop51 : (DiskPlotter.WriteHeader plot k id fmtDesc).1.drop (plot.length + 51) =
      [k % 256] ++ (Util.IntToTwoBytes fmtDesc.length ++
        (fmtDesc ++ List.replicate (10 * 8) 0)) := by
    have h51 : (DiskPlotter.headerMagic ++ id).length = 51 := by
      rw [List.length_append, hmagic, hid]
    rw [hdropN 51, ← List.append_assoc]
    exact drop_len_append _ _ _ h51
  have hdrop52 : (DiskPlotter.WriteHeader plot k id fmtDesc).1.drop (plot.length + 52) =
      Util.IntToTwoBytes fmtDesc.length ++ (fmtDesc ++ List.replicate (10 * 8) 0) := by
    have h52 : ((DiskPlotter.headerMagic ++ id) ++ [k % 256]).length = 52 := by
      rw [List.length_append, List.length_append, hmagic, hid]
      rfl
    rw [hdropN 52, ← List.append_assoc, ← List.append_assoc]
    exact drop_len_append _ _ _ h52
  have hdrop54 : (DiskPlotter.WriteHeader plot k id fmtDesc).1.drop (plot.length + 54) =
      fmtDesc ++ List.replicate (10 * 8) 0 := by
    have h54 : (((DiskPlotter.headerMagic ++ id) ++ [k % 256]) ++
        Util.IntToTwoBytes fmtDesc.length).length = 54 := by
      rw [List.length_append, List.length_append, List.length_append, hmagic, hid, htwo]
      rfl
    rw [hdropN 54, ← List.append_assoc, ← List.append_assoc, ← List.append_assoc]
    exact drop_len_append _ _ _ h54
  have hdropEnd : (DiskPlotter.WriteHeader plot k id fmtDesc).1.drop
      (plot.length + 54 + fmtDesc.length) = List.replicate (10 * 8) 0 := by
    have h1 : plot.length + 54 + fmtDesc.length = plot.length + (54 + fmtDesc.length) := by
      omega
    have hlen : ((((DiskPlotter.headerMagic ++ id) ++ [k % 256]) ++
        Util.IntToTwoBytes fmtDesc.length) ++ fmtDesc).length = 54 + fmtDesc.length := by
      rw [List.length_append, List.length_append, List.length_append, List.length_append,
        hmagic, hid, htwo, List.length_singleton]
    rw [h1, hdropN (54 + fmtDesc.length), ← List.append_assoc, ← List.append_assoc,
      ← List.append_assoc, ← List.append_assoc]
    exact drop_len_append _ _ _ hlen
  refine ⟨?_, ?_, hmagic, ?_, ?_, ?_, ?_, ?_, ?_, ?_⟩
  · unfold DiskPlotter.WriteHeader
    rw [hmagic]
    rfl
  · rw [hbody]
    unfold DiskPlotter.WriteHeader
    simp [hmagic, hid, DiskPlotter.kIdLen, Util.IntToTwoBytes]
    omega
  · rw [hdrop0]
    exact take_len_append _ _ _ hmagic
  · rw [hdrop19]
    exact take_len_append _ _ _ hid
  · rw [hdrop51]
    have : k % 256 = k := Nat.mod_eq_of_lt hk
    rw [take_len_append [k % 256] _ 1 rfl, this]
  · rw [hdrop52]
    exact take_len_append _ _ _ htwo
  · have hb0 : (DiskPlotter.WriteHeader plot k id fmtDesc).1.getD (plot.length + 52) 0 =
        fmtDesc.length / 256 % 256 := by
      have h1 : ((DiskPlotter.WriteHeader plot k id fmtDesc).1.drop
          (plot.length + 52)).head? = some (fmtDesc.length / 256 % 256) := by
        rw [hdrop52]
        rfl
      rw [List.head?_drop] at h1
      simp [List.getD, h1]
    have hb1 : (DiskPlotter.WriteHeader plot k id fmtDesc).1.getD (plot.length + 53) 0 =
        fmtDesc.length % 256 := by
      have h53 : plot.length + 53 = plot.length + 52 + 1 := by omega
      have h1 : ((DiskPlotter.WriteHeader plot k id fmtDesc).1.drop
          (plot.length + 53)).head? = some (fmtDesc.length % 256) := by
        rw [h53, ← List.drop_drop, hdrop52]
        rfl
      rw [List.head?_drop] at h1
      simp [List.getD, h1]
    rw [hb0, hb1]
    have : fmtDesc.length / 256 % 256 = fmtDesc.length / 256 := by
      apply Nat.mod_eq_of_lt
      omega
    rw [this]
    omega
  · rw [hdrop54]
    exact take_len_append _ _ _ rfl
  · rw [hdropEnd]

theorem C6_writeHeader_layout_witness :
    (DiskPlotter.WriteHeader [] 32 (List.replicate 32 1) [65, 66]).2 =
      19 + 32 + 1 + 2 + 2 + 80 ∧
    ((DiskPlotter.WriteHeader [] 32 (List.replicate 32 1) [65, 66]).1.drop
      (List.length ([] : List Nat))).take 19 = DiskPlotter.headerMagic :=
  ⟨(C6_writeHeader_layout [] 32 (List.replicate 32 1) [65, 66] (by decide) (by decide)
      (by decide)).1,
    (C6_writeHeader_layout [] 32 (List.replicate 32 1) [65, 66] (by decide) (by decide)
      (by decide)).2.2.2.1⟩

theorem RoundPow2Go_spec (a : Nat) : ∀ (fuel k : Nat), a ≤ 2 ^ (k + fuel) →
    ∃ l, Util.RoundPow2Go a fuel (2 ^ k) = 2 ^ l ∧ k ≤ l ∧ a ≤ 2 ^ l ∧
      ∀ m, k ≤ m → a ≤ 2 ^ m → l ≤ m := by
  intro fuel
  induction fuel with
  | zero =>
    intro k h
    refine ⟨k, rfl, Nat.le_refl _, by simpa using h, fun m hm _ => hm⟩
  | succ fuel ih =>
    intro k h
    simp only [Util.RoundPow2Go]
    by_cases hlt : 2 ^ k < a
    · rw [if_pos hlt]
      have hpow : 2 * 2 ^ k = 2 ^ (k + 1) := by
        rw [pow_succ]
        ring
      rw [hpow]
      obtain ⟨l, hgo, hkl, hal, hmin⟩ := ih (k + 1) (by
        have : k + 1 + fuel = k + (fuel + 1) := by omega
        rw [this]
        exact h)
      refine ⟨l, hgo, by omega, hal, ?_⟩
      intro m hm ham
      rcases eq_or_ne m k with rfl | hne
      · omega
      · exact hmin m (by omega) ham
    · rw [if_neg hlt]
      exact ⟨k, rfl, Nat.le_refl _, by omega, fun m hm _ => hm⟩

theorem RoundPow2_spec (a : Nat) :
    (∃ l, Util.RoundPow2 a = 2 ^ l) ∧ a ≤ Util.RoundPow2 a ∧
    ∀ m, a ≤ 2 ^ m → Util.RoundPow2 a ≤ 2 ^ m := by
  have h := RoundPow2Go_spec a a 0 (by
    simpa using (Nat.lt_two_pow a).le)
  obtain ⟨l, hgo, _, hal, hmin⟩ := h
  have hr : Util.RoundPow2 a = Util.RoundPow2Go a a (2 ^ 0) := rfl
  rw [hr, hgo]
  exact ⟨⟨l, rfl⟩, hal, fun m hm => (Nat.pow_le_pow_right (by norm_num)
    (hmin m (Nat.zero_le m) hm))⟩

/-- C8: a non-zero `num_buckets_input` that is not a power of two is
silently rounded up to the smallest power of two at or above it and that
value is used as the bucket count; the shape itself raises no error — an
`InvalidValue` error is raised exactly when the rounded value falls
outside `[kMinBuckets, kMaxBuckets]`. -/
theorem C8_numBuckets_rounding (numBucketsInput computedDefault
    kMinBuckets kMaxBuckets : Nat) (hnz : numBucketsInput ≠ 0) :
    (∃ l, Util.RoundPow2 numBucketsInput = 2 ^ l) ∧
    numBucketsInput ≤ Util.RoundPow2 numBucketsInput ∧
    (∀ m, numBucketsInput ≤ 2 ^ m → Util.RoundPow2 numBucketsInput ≤ 2 ^ m) ∧
    (kMinBuckets ≤ Util.RoundPow2 numBucketsInput →
      Util.RoundPow2 numBucketsInput ≤ kMaxBuckets →
      DiskPlotter.resolveNumBuckets numBucketsInput computedDefault
        kMinBuckets kMaxBuckets = .ok (Util.RoundPow2 numBucketsInput)) ∧
    (Util.RoundPow2 numBucketsInput < kMinBuckets ∨
        kMaxBuckets < Util.RoundPow2 numBucketsInput →
      DiskPlotter.resolveNumBuckets numBucketsInput computedDefault
        kMinBuckets kMaxBuckets = .error ChiaError.InvalidValue) := by
  obtain ⟨hpow, hge, hmin⟩ := RoundPow2_spec numBucketsInput
  refine ⟨hpow, hge, hmin, ?_, ?_⟩
  · intro h1 h2
    have hc1 : ¬ (Util.RoundPow2 numBucketsInput < kMinBuckets) := by omega
    have hc2 : ¬ (kMaxBuckets < Util.RoundPow2 numBucketsInput) := by omega
    simp only [DiskPlotter.resolveNumBuckets, if_pos hnz]
    rw [if_neg hc1, if_neg hc2]
  · intro h
    simp only [DiskPlotter.resolveNumBuckets, if_pos hnz]
    rcases h with h | h
    · rw [if_pos h]
    · by_cases hc1 : Util.RoundPow2 numBucketsInput < kMinBuckets
      · rw [if_pos hc1]
      · rw [if_neg hc1, if_pos h]

theorem C8_numBuckets_rounding_witness :
    Util.RoundPow2 12 = 16 ∧
    DiskPlotter.resolveNumBuckets 12 0 16 128 = .ok (Util.RoundPow2 12) ∧
    DiskPlotter.resolveNumBuckets 3 0 16 128 = .error ChiaError.InvalidValue :=
  ⟨by decide,
    (C8_numBuckets_rounding 12 0 16 128 (by decide)).2.2.2.1 (by decide) (by decide),
    (C8_numBuckets_rounding 3 0 16 128 (by decide)).2.2.2.2 (Or.inl (by decide))⟩
